import Mathlib

/-!
# Verification of the OCFL inventory and traversal engine

A shallow embedding, in Lean 4, of the core of the `birkland/ocfl` Go
repository: the inventory data model (`metadata/inventory.go`), the
physical-to-logical resolver (`drivers/fs/resolve.go`), the object session
(`drivers/fs/session.go`) and the scope walker (`drivers/fs/walk.go`).

Go maps are modelled as association lists (Go map keys are unique; where a
theorem needs that fact it takes an explicit no-duplicate-keys hypothesis).
Go strings are modelled as Lean `String`; Go compares strings byte-wise,
and UTF-8 byte order coincides with code-point order, so the Go comparison
is embedded below as code-point-wise comparison on `String.data`.
Machine integers (`int64` in `strconv.ParseInt`) are modelled as `Int`
with an explicit range check.  Filesystem probes (`os.Stat`) are modelled
as an abstract function from paths to stat outcomes.
-/

namespace OCFL

/-! ## Go string comparison (byte-wise `<` on strings, used by `sort.Strings`
and by the `version > p` comparison in `Inventory.Files`) -/

/-- Go's `<` on strings: lexicographic, byte-wise.  On valid UTF-8, byte
order equals code-point order, so we compare char code points. -/
def goLtChars : List Char → List Char → Bool
  | [], [] => false
  | [], _ :: _ => true
  | _ :: _, [] => false
  | a :: as, b :: bs =>
    if a.toNat < b.toNat then true
    else if b.toNat < a.toNat then false
    else goLtChars as bs

def goLt (a b : String) : Bool := goLtChars a.data b.data

/-- Go's `<=` on strings (`a <= b` iff `!(b < a)`). -/
def goLe (a b : String) : Bool := !goLt b a

/-! ## Association lists standing in for Go maps -/

/-- Lookup in an association list (`m[k]` on a Go map). -/
def alookup {β : Type} (k : String) : List (String × β) → Option β
  | [] => none
  | (k', v) :: rest => if k = k' then some v else alookup k rest

/-- Map update `m[k] = v` on a Go map: replace the binding if the key is
present, otherwise add it. -/
def ainsert {β : Type} (k : String) (v : β) : List (String × β) → List (String × β)
  | [] => [(k, v)]
  | (k', v') :: rest => if k = k' then (k, v) :: rest else (k', v') :: ainsert k v rest

/-! ## Inventory data model (`metadata/inventory.go`) -/

abbrev Digest := String

/-- `Manifest`: mapping of digests to lists of file paths. -/
abbrev Manifest := List (Digest × List String)

/-- `Version`: one OCFL version record.  `Created` (a `time.Time`) is
modelled as an abstract instant (an integer). -/
structure GoVersion where
  created : Int
  message : String
  userName : String
  userAddress : String
  state : Manifest
deriving Repr, DecidableEq

/-- `Inventory`: one object's version history, including the two
unexported transient indexes used by `AddFile`. -/
structure Inventory where
  id : String
  type : String
  digestAlgorithm : String
  head : String
  manifest : Manifest
  versions : List (String × GoVersion)
  fixity : List (String × Manifest)
  stateIndex : Option (List (String × Digest)) := none
  manifestIndex : Option (List (String × Digest)) := none
deriving Repr, DecidableEq

/-! ## VersionID arithmetic (`Valid`, `Int`, `Increment`) -/

abbrev VersionID := String

/-- `strings.TrimLeft(v, "v")`: strip every leading `'v'`. -/
def trimLeadingV : List Char → List Char
  | 'v' :: rest => trimLeadingV rest
  | s => s

/-- Numeric value of a decimal digit char, if it is one. -/
def digitVal (c : Char) : Option Nat :=
  if 48 ≤ c.toNat ∧ c.toNat ≤ 57 then some (c.toNat - 48) else none

def parseDigitsAux : List Char → Nat → Option Nat
  | [], acc => some acc
  | c :: rest, acc =>
    match digitVal c with
    | some d => parseDigitsAux rest (acc * 10 + d)
    | none => none

/-- Parse a nonempty all-digit string to its value. -/
def goParseNat (s : List Char) : Option Nat :=
  match s with
  | [] => none
  | _ => parseDigitsAux s 0

def maxInt64 : Nat := 9223372036854775807

/-- `strconv.ParseInt(s, 10, 64)`: optional sign, then nonempty digits,
value must fit in a signed 64-bit integer. -/
def goParseInt64 (s : List Char) : Option Int :=
  match s with
  | [] => none
  | c :: rest =>
    if c = '+' then
      (goParseNat rest).bind fun n => if n ≤ maxInt64 then some (n : Int) else none
    else if c = '-' then
      (goParseNat rest).bind fun n => if n ≤ maxInt64 + 1 then some (-(n : Int)) else none
    else
      (goParseNat (c :: rest)).bind fun n => if n ≤ maxInt64 then some (n : Int) else none

/-- Two's-complement wrap-around of signed 64-bit addition results. -/
def int64Wrap (n : Int) : Int := (n + 2 ^ 63) % 2 ^ 64 - 2 ^ 63

/-- `VersionID.Int`: `strconv.ParseInt(strings.TrimLeft(string(v), "v"), 10, 64)`. -/
def VersionID.Int (v : VersionID) : Option Int :=
  goParseInt64 (trimLeadingV v.data)

/-- `VersionID.Valid`: length at least 2, first byte `'v'`, and the parsed
integer value is positive. -/
def VersionID.Valid (v : VersionID) : Bool :=
  if v.data.length < 2 || v.data.head? ≠ some 'v' then false
  else
    match VersionID.Int v with
    | some i => decide (0 < i)
    | none => false

/-- Decimal digits of a natural number (fuel-based so that closed terms
reduce; fuel `n + 1` always suffices). -/
def natDigitsAux : Nat → Nat → List Char
  | 0, _ => []
  | fuel + 1, n =>
    if n < 10 then [Char.ofNat (48 + n)]
    else natDigitsAux fuel (n / 10) ++ [Char.ofNat (48 + n % 10)]

def natRepr (n : Nat) : String := String.mk (natDigitsAux (n + 1) n)

/-- `fmt.Sprintf("v%d", i)` body for a nonnegative int. -/
def intRepr (i : Int) : String :=
  if i < 0 then "-" ++ natRepr i.natAbs else natRepr i.toNat

/-- `fmt.Sprintf("%0<width>d", i)`: the decimal representation
left-padded with zeros to `width` (a sign counts toward the width and
precedes the padding). -/
def goPadded (width : Nat) (i : Int) : String :=
  if i < 0 then
    let s := natRepr i.natAbs
    if s.data.length + 1 < width then
      "-" ++ String.mk (List.replicate (width - s.data.length - 1) '0') ++ s
    else "-" ++ s
  else
    let s := natRepr i.toNat
    if s.data.length < width then
      String.mk (List.replicate (width - s.data.length) '0') ++ s
    else s

/-- `VersionID.Increment`: reject invalid names; if the second byte is
`'0'` the name counts as padded and the successor keeps the same total
digit width, else plain `v%d` formatting. -/
def VersionID.Increment (v : VersionID) : Except String VersionID :=
  if !(VersionID.Valid v) then
    .error ("version " ++ v ++ " is not a valid OCFL version")
  else
    let i := (VersionID.Int v).getD 0
    match v.data.get? 1 with
    | some '0' => .ok ("v" ++ goPadded (v.data.length - 1) (int64Wrap (i + 1)))
    | _ => .ok ("v" ++ intRepr (int64Wrap (i + 1)))

/-- Value of a digit string (most significant digit first). -/
def digitsValue (ds : List Char) : Nat :=
  ds.foldl (fun acc c => acc * 10 + (c.toNat - 48)) 0

/-- The digits of 2^63, the first value rejected by `strconv.ParseInt`'s
64-bit range check. -/
def c5digits : List Char :=
  ['9','2','2','3','3','7','2','0','3','6','8','5','4','7','7','5','8','0','8']

/-! ## `Inventory.Files` and its physical-path selection -/

/-- `strings.HasPrefix(s, pfx)`. -/
def isPfxOf : List Char → List Char → Bool
  | [], _ => true
  | _ :: _, [] => false
  | a :: as, b :: bs => a == b && isPfxOf as bs

def strHasPfx (s pfx : String) : Bool := isPfxOf pfx.data s.data

/-- The derived `File` record (`LogicalPath`/`PhysicalPath` fields only;
the `Version`/`Inventory` back-pointers carry no extra information). -/
structure GoFile where
  logicalPath : String
  physicalPath : String
deriving Repr, DecidableEq

inductive FilesErr where
  | noVersion
  | noManifestEntry (lpath : String) (digest : Digest)
  | noPhysicalFiles (lpath : String) (digest : Digest)
deriving Repr, DecidableEq

/-- Insertion step for `sortStrings`. -/
def insertSorted (x : String) : List String → List String
  | [] => [x]
  | y :: ys => if goLe x y then x :: y :: ys else y :: insertSorted x ys

/-- `sort.Strings`: ascending lexical sort.  A sorted permutation of a
list of strings is unique as a list (duplicates are indistinguishable),
so insertion sort produces exactly the slice Go's sort leaves behind. -/
def sortStrings : List String → List String
  | [] => []
  | x :: xs => insertSorted x (sortStrings xs)

/-- The filter inside `Files`'s multi-candidate branch: keep a path when
`version > p` (Go string comparison) or `p` starts with `version + "/"`. -/
def pathCandidates (version : String) (ppaths : List String) : List String :=
  ppaths.filter (fun p => goLt p version || strHasPfx p (version ++ "/"))

/-- The multi-candidate branch of `Inventory.Files`: start from
`ppaths[0]`; when there are several candidates, build a slice of
`len(ppaths)` empty strings (the `make` result) followed by every path
passing the filter, sort (`sort.Strings`), and take the last element if
the slice is nonempty. -/
def selectPhysicalPath (version : String) (ppaths : List String) (p0 : String) : String :=
  if 1 < ppaths.length then
    let spaths := List.replicate ppaths.length "" ++ pathCandidates version ppaths
    match (sortStrings spaths).getLast? with
    | some last => last
    | none => p0
  else p0

/-- Modelled from the spec (claim C1): the version number under which a
physical path such as `v3/content/a.txt` resides, namely the digits
between the leading `v` and the first `/`. -/
def specResidingVersion (p : String) : Option Nat :=
  match p.data with
  | 'v' :: rest =>
    let ds := rest.takeWhile fun c => decide (48 ≤ c.toNat ∧ c.toNat ≤ 57)
    if ds ≠ [] ∧ (rest.drop ds.length).head? = some '/' then some (digitsValue ds)
    else none
  | _ => none

/-- Inner loop of `Files`: one state entry (digest plus logical paths),
appending `File` records to the accumulator, stopping at the first
inconsistency exactly as the Go code returns early. -/
def filesInner (inv : Inventory) (version : String) (digest : Digest)
    (acc : List GoFile) : List String → List GoFile × Option FilesErr
  | [] => (acc, none)
  | lpath :: rest =>
    match alookup digest inv.manifest with
    | none => (acc, some (.noManifestEntry lpath digest))
    | some [] => (acc, some (.noPhysicalFiles lpath digest))
    | some (p0 :: ps) =>
      filesInner inv version digest
        (acc ++ [⟨lpath, selectPhysicalPath version (p0 :: ps) p0⟩]) rest

/-- Outer loop of `Files` over the version's state entries. -/
def filesOuter (inv : Inventory) (version : String)
    (acc : List GoFile) : List (Digest × List String) → List GoFile × Option FilesErr
  | [] => (acc, none)
  | (digest, lpaths) :: rest =>
    match filesInner inv version digest acc lpaths with
    | (fs, some e) => (fs, some e)
    | (fs, none) => filesOuter inv version fs rest

/-- `Inventory.Files(version)`: Go returns the accumulated slice together
with an optional error (callers such as `walkVersions` use the slice even
when the error is non-nil). -/
def Inventory.Files (inv : Inventory) (version : String) :
    List GoFile × Option FilesErr :=
  match alookup version inv.versions with
  | none => ([], some .noVersion)
  | some v => filesOuter inv version [] v.state

/-! ## `resolve` fan-out over logical files (`drivers/fs/resolve.go`) -/

/-- `findDigest`: scan the manifest for the physical path, returning the
empty digest when it is absent. -/
def findDigestIn : Manifest → String → Digest
  | [], _ => ""
  | (d, files) :: rest, path =>
    if files.contains path then d else findDigestIn rest path

def findDigest (inv : Inventory) (path : String) : Digest :=
  findDigestIn inv.manifest path

/-- The identifying data of a `File` entity emitted by `resolve`: the
version directory it is reported under and its logical path. -/
structure FileHit where
  versionID : String
  logicalPath : String
deriving Repr, DecidableEq

/-- The file branch of `resolve`: map the physical path to its digest,
then for every version whose state lists that digest emit one entity per
logical path. -/
def resolveFileRefs (inv : Inventory) (relpath : String) : List FileHit :=
  let digest := findDigest inv relpath
  inv.versions.flatMap fun ver =>
    ver.2.state.flatMap fun entry =>
      if entry.1 = digest then entry.2.map fun p => FileHit.mk ver.1 p else []

/-! ## `Inventory.AddFile` (conflict checks and mutation) -/

inductive AddErr where
  | stateConflict (lpath : String)
  | manifestConflict (rpath : String)
  | indexDup (path : String)
deriving Repr, DecidableEq

/-- Both conflict constructors correspond to the spec's `Conflict` error. -/
def AddErr.isConflict : AddErr → Bool
  | .stateConflict _ => true
  | .manifestConflict _ => true
  | .indexDup _ => false

/-- Inner loop of `index`: insert all paths of one digest, failing on a
duplicate path with a different digest. -/
def indexPaths (digest : Digest) (acc : List (String × Digest)) :
    List String → Except AddErr (List (String × Digest))
  | [] => .ok acc
  | p :: rest =>
    match alookup p acc with
    | some d =>
      if d ≠ digest then .error (.indexDup p)
      else indexPaths digest (ainsert p digest acc) rest
    | none => indexPaths digest (ainsert p digest acc) rest

/-- `index(m)`: build a transient path-to-digest index. -/
def indexManifest (acc : List (String × Digest)) :
    Manifest → Except AddErr (List (String × Digest))
  | [] => .ok acc
  | (digest, paths) :: rest =>
    match indexPaths digest acc paths with
    | .error e => .error e
    | .ok acc2 => indexManifest acc2 rest

/-- `i.Versions[i.Head].State` (the zero `Version` has a nil state map). -/
def Inventory.headState (i : Inventory) : Manifest :=
  match alookup i.head i.versions with
  | some v => v.state
  | none => []

/-- Second half of `indexHead`: build the manifest index if missing. -/
def indexHeadManifest (i : Inventory) : Inventory × Option AddErr :=
  match i.manifestIndex with
  | none =>
    match indexManifest [] i.manifest with
    | .error e => (i, some e)
    | .ok idx => ({ i with manifestIndex := some idx }, none)
  | some _ => (i, none)

/-- `indexHead`: lazily build the state index, then the manifest index. -/
def Inventory.indexHead (i : Inventory) : Inventory × Option AddErr :=
  match i.stateIndex with
  | none =>
    match indexManifest [] i.headState with
    | .error e => (i, some e)
    | .ok idx => indexHeadManifest { i with stateIndex := some idx }
  | some _ => indexHeadManifest i

/-- State/manifest half of `addPathMapping`: `state[digest]` gains `path`
(appended), or a fresh one-element list when the digest is new. -/
def statePut (digest : Digest) (path : String) (m : Manifest) : Manifest :=
  match alookup digest m with
  | none => ainsert digest [path] m
  | some paths => ainsert digest (paths ++ [path]) m

/-- `addPathMapping` into the head version's state map.  (Go writes
through a map reference obtained from `i.Versions[i.Head]`; a missing
head version would make that reference a nil map and the write a runtime
panic, so that case is never exercised and is modelled as the identity.) -/
def Inventory.putHeadState (i : Inventory) (digest : Digest) (path : String) : Inventory :=
  match alookup i.head i.versions with
  | none => i
  | some v =>
    { i with versions := ainsert i.head { v with state := statePut digest path v.state } i.versions }

/-- Mutation step of `AddFile` once both conflict checks have passed. -/
def addFileMutate (i : Inventory) (logicalPath relativePath : String) (digest : Digest)
    (stateConflict manifestConflict : Bool) : Inventory × Option AddErr :=
  let i2 :=
    if stateConflict then i
    else
      ({ i with stateIndex := some (ainsert logicalPath digest (i.stateIndex.getD [])) }).putHeadState
        digest logicalPath
  let i3 :=
    if manifestConflict then i2
    else
      { i2 with manifestIndex := some (ainsert relativePath digest (i2.manifestIndex.getD [])),
                manifest := statePut digest relativePath i2.manifest }
  (i3, none)

/-- `Inventory.AddFile`: index lazily, check the logical path against the
head state, check the physical path against the manifest, then append
the new mappings. -/
def Inventory.AddFile (i : Inventory) (logicalPath relativePath : String) (digest : Digest) :
    Inventory × Option AddErr :=
  match i.indexHead with
  | (i1, some e) => (i1, some e)
  | (i1, none) =>
    match alookup logicalPath (i1.stateIndex.getD []) with
    | some d =>
      if d ≠ digest then (i1, some (.stateConflict logicalPath))
      else
        match alookup relativePath (i1.manifestIndex.getD []) with
        | some d' =>
          if d' ≠ digest then (i1, some (.manifestConflict relativePath))
          else addFileMutate i1 logicalPath relativePath digest true true
        | none => addFileMutate i1 logicalPath relativePath digest true false
    | none =>
      match alookup relativePath (i1.manifestIndex.getD []) with
      | some d' =>
        if d' ≠ digest then (i1, some (.manifestConflict relativePath))
        else addFileMutate i1 logicalPath relativePath digest false true
      | none => addFileMutate i1 logicalPath relativePath digest false false

/-! ## Session `nextVersion` (`drivers/fs/session.go`) -/

inductive SessionErr where
  | incrementErr
  | badVersion
deriving Repr, DecidableEq

/-- The inventory mutation in `setupVersion`: validate the next name, set
`Head`, and seed the new version's state with a copy of the previous
head's state (empty when the previous version is absent).  Directory
creation and the session's `EntityRef` bookkeeping are filesystem-side
effects with no bearing on the inventory. -/
def setupVersionInv (inv : Inventory) (prev next : String) : Except SessionErr Inventory :=
  if !(VersionID.Valid next) then .error .badVersion
  else
    let nextVer : GoVersion :=
      match alookup prev inv.versions with
      | some pv => { created := 0, message := "", userName := "", userAddress := "", state := pv.state }
      | none => { created := 0, message := "", userName := "", userAddress := "", state := [] }
    .ok { inv with head := next, versions := ainsert next nextVer inv.versions }

/-- `session.nextVersion`: increment the head name and set up the new
version.  (`prepareWrite` only installs the commit closure and rejects
stale sessions; it does not touch the inventory.) -/
def Inventory.nextVersion (inv : Inventory) : Except SessionErr Inventory :=
  match VersionID.Increment inv.head with
  | .error _ => .error .incrementErr
  | .ok next => setupVersionInv inv inv.head next


/-! ## Concrete fixtures used by counterexamples and witnesses -/

/-- A version record with empty commit metadata and the given state. -/
def mkVer (st : Manifest) : GoVersion :=
  { created := 0, message := "", userName := "", userAddress := "", state := st }

/-- Fixture for claim C1: the digest `d1` has physical copies residing
under `v1` and `v10`, and `v2`'s state references it. -/
def invC1 : Inventory :=
  { id := "test:obj", type := "Object", digestAlgorithm := "sha512", head := "v10",
    manifest := [("d1", ["v1/content/f.txt", "v10/content/f.txt"])],
    versions := [("v2", mkVer [("d1", ["f.txt"])])],
    fixity := [] }

/-- Fixture for claim C2 (the spec's dedup fan-out scenario): one
physical file, two logical names in `v1`, carried forward into `v2` and
`v3` under one name. -/
def invC2 : Inventory :=
  { id := "test:obj2", type := "Object", digestAlgorithm := "sha512", head := "v3",
    manifest := [("d1", ["v1/content/a.txt"])],
    versions := [("v1", mkVer [("d1", ["a.txt", "a-copy.txt"])]),
                 ("v2", mkVer [("d1", ["a.txt"])]),
                 ("v3", mkVer [("d1", ["a.txt"])])],
    fixity := [] }

/-- Fixture for claims C3 and C9: a fresh inventory with an empty head
version (as `NewInventory` produces). -/
def invEmptyV1 : Inventory :=
  { id := "o", type := "Object", digestAlgorithm := "sha512", head := "v1",
    manifest := [], versions := [("v1", mkVer [])], fixity := [] }

/-- Abbreviation for the record produced in `addFileMutate`'s
no-state-conflict branch just before `putHeadState`. -/
def withStateInsert (i : Inventory) (p : String) (d : Digest) : Inventory :=
  { i with stateIndex := some (ainsert p d (i.stateIndex.getD [])) }


/-! ## Entity types, filesystem probes, and `isRoot` (`drivers/fs/resolve.go`) -/

/-- `ocfl.Type`, with Go's constant ordering `Any=0 < File < Version <
Object < Intermediate < Root`. -/
inductive EType where
  | Any
  | File
  | Version
  | Object
  | Intermediate
  | Root
deriving Repr, DecidableEq

/-- The integer value of an `ocfl.Type` constant. -/
def EType.val : EType → Nat
  | .Any => 0
  | .File => 1
  | .Version => 2
  | .Object => 3
  | .Intermediate => 4
  | .Root => 5

/-- Outcome of an `os.Stat` call: success (with mode bits), the
not-exist error, or any other I/O error (e.g. permission denied). -/
inductive StatRes where
  | ok (isDir : Bool) (isRegular : Bool)
  | errNotExist
  | errOther (code : Nat)
deriving Repr, DecidableEq

/-- Errors surfaced by `isRoot`. -/
inductive RootErr where
  | statNotExist
  | statErr (code : Nat)
  | wrapped (msg : String) (e : RootErr)
deriving Repr, DecidableEq

def ocflRootMarker : String := "0=ocfl_1.0"
def ocflObjectMarker : String := "0=ocfl_object_1.0"

/-- Body of `isRoot` for a concrete marker: stat the directory (errors
propagate raw), then stat the marker file; a not-exist error means "not
a root" with no error, any other error is wrapped and returned. -/
def isRootProbe (stat : String → StatRes) (path : String) (t : EType) (marker : String) :
    Bool × EType × Option RootErr :=
  match stat path with
  | .errNotExist => (false, t, some .statNotExist)
  | .errOther c => (false, t, some (.statErr c))
  | .ok isDir _ =>
    if !isDir then (false, t, none)
    else
      match stat (path ++ "/" ++ marker) with
      | .errOther c => (false, t, some (.wrapped "error detecting namaste file" (.statErr c)))
      | .errNotExist => (false, t, none)
      | .ok _ isReg => (isReg, t, none)

/-- `isRoot(path, t)`: dispatch on the desired type; for `Any` try the
OCFL root first and, when that reports false, the object root — the
recursive calls are inlined. -/
def isRoot (stat : String → StatRes) (path : String) (t : EType) :
    Bool × EType × Option RootErr :=
  match t with
  | .Root => isRootProbe stat path .Root ocflRootMarker
  | .Object => isRootProbe stat path .Object ocflObjectMarker
  | .Any =>
    let r := isRootProbe stat path .Root ocflRootMarker
    if r.1 then r else isRootProbe stat path .Object ocflObjectMarker
  | _ => (false, t, none)

/-- Fixture for claim C7: a directory whose OCFL-root marker probe fails
with a permission error (code 13) and whose object marker is absent. -/
def statC7 : String → StatRes := fun s =>
  if s = "/d" then .ok true false
  else if s = "/d/0=ocfl_1.0" then .errOther 13
  else .errNotExist


/-! ## JSON serialization model (`Serialize`/`Parse` via `encoding/json`) -/

/-- The JSON value tree that `encoding/json` encodes to and decodes
from.  Text rendering/lexing is the standard library's concern; the
struct-to-JSON mapping (field tags, maps to objects, slices to arrays)
is what `Serialize`/`Parse` contribute and what is modelled here.
`time.Time` serializes injectively (RFC 3339 with full precision), so
the abstract `created` instant is carried by a number node. -/
inductive Json where
  | str (s : String)
  | num (n : Int)
  | arr (items : List Json)
  | obj (fields : List (String × Json))
deriving Repr

def serializePaths (ps : List String) : Json := .arr (ps.map .str)

def serializeManifest (m : Manifest) : Json :=
  .obj (m.map fun e => (e.1, serializePaths e.2))

def serializeVersion (v : GoVersion) : Json :=
  .obj [("created", .num v.created), ("message", .str v.message),
        ("user", .obj [("name", .str v.userName), ("address", .str v.userAddress)]),
        ("state", serializeManifest v.state)]

/-- `Inventory.Serialize`: the JSON object with the exported, tagged
fields (the unexported transient indexes are not serialized). -/
def serializeInventory (i : Inventory) : Json :=
  .obj [("id", .str i.id), ("type", .str i.type),
        ("digestAlgorithm", .str i.digestAlgorithm), ("head", .str i.head),
        ("manifest", serializeManifest i.manifest),
        ("versions", .obj (i.versions.map fun e => (e.1, serializeVersion e.2))),
        ("fixity", .obj (i.fixity.map fun e => (e.1, serializeManifest e.2)))]

def parseStrList : List Json → Option (List String)
  | [] => some []
  | .str s :: rest => (parseStrList rest).map (fun l => s :: l)
  | _ => none

def parsePaths : Json → Option (List String)
  | .arr items => parseStrList items
  | _ => none

def parseManifestFields : List (String × Json) → Option Manifest
  | [] => some []
  | (k, v) :: rest =>
    match parsePaths v, parseManifestFields rest with
    | some ps, some m => some ((k, ps) :: m)
    | _, _ => none

def parseManifest : Json → Option Manifest
  | .obj fields => parseManifestFields fields
  | _ => none

/-- Decode one version object by field name (JSON decoding is
order-insensitive, as `encoding/json` is). -/
def parseVersion (j : Json) : Option GoVersion :=
  match j with
  | .obj fields =>
    match alookup "created" fields, alookup "message" fields,
          alookup "user" fields, alookup "state" fields with
    | some (.num c), some (.str msg), some (.obj ufields), some st =>
      (match alookup "name" ufields, alookup "address" ufields, parseManifest st with
       | some (.str nm), some (.str ad), some state =>
         some { created := c, message := msg, userName := nm, userAddress := ad, state := state }
       | _, _, _ => none)
    | _, _, _, _ => none
  | _ => none

def parseVersionsFields : List (String × Json) → Option (List (String × GoVersion))
  | [] => some []
  | (k, v) :: rest =>
    match parseVersion v, parseVersionsFields rest with
    | some ver, some vs => some ((k, ver) :: vs)
    | _, _ => none

def parseFixityFields : List (String × Json) → Option (List (String × Manifest))
  | [] => some []
  | (k, v) :: rest =>
    match parseManifest v, parseFixityFields rest with
    | some m, some fs => some ((k, m) :: fs)
    | _, _ => none

/-- `Parse`: decode an inventory from its JSON value; the unexported
index fields start out nil, as on a freshly decoded Go struct. -/
def parseInventory (j : Json) : Option Inventory :=
  match j with
  | .obj fields =>
    match alookup "id" fields, alookup "type" fields,
          alookup "digestAlgorithm" fields, alookup "head" fields,
          alookup "manifest" fields, alookup "versions" fields,
          alookup "fixity" fields with
    | some (.str id), some (.str ty), some (.str alg), some (.str hd),
      some mf, some (.obj vfields), some (.obj ffields) =>
      (match parseManifest mf, parseVersionsFields vfields, parseFixityFields ffields with
       | some m, some vs, some fx =>
         some { id := id, type := ty, digestAlgorithm := alg, head := hd,
                manifest := m, versions := vs, fixity := fx,
                stateIndex := none, manifestIndex := none }
       | _, _, _ => none)
    | _, _, _, _, _, _, _ => none
  | _ => none

/-- Fixture for claim C4: Unicode user metadata, several physical paths
per digest, and two fixity algorithms (mirroring the repo's test data). -/
def invC4 : Inventory :=
  { id := "test://myOcflObject", type := "Object", digestAlgorithm := "sha512",
    head := "v2",
    manifest := [("a", ["v1/content/physical/1", "v3/content/physical/1"]),
                 ("b", ["v2/content/physical/2"])],
    versions := [("v1", { created := 7, message := "hello", userName := "孔子",
                          userAddress := "⌖", state := [("a", ["logical/1"])] }),
                 ("v2", { created := 9, message := "", userName := "", userAddress := "",
                          state := [("a", ["logical/1"]), ("b", ["logical/2"])] })],
    fixity := [("md5", [("m1", ["v1/content/physical/1"])]),
               ("sha1", [("s1", ["v1/content/physical/1"])])] }


/-! ## Scope walker (`drivers/fs/walk.go`) -/

/-- One node of an `EntityRef`. -/
structure Node where
  id : String
  addr : String
  ty : EType
deriving Repr, DecidableEq

/-- An `EntityRef` represented by its `Parent` chain: the head is the
entity itself, the tail the chain of `Parent` links (`nil` parent =
empty tail). -/
abbrev ERef := List Node

def chainTy : ERef → EType
  | [] => EType.Any
  | n :: _ => n.ty

def chainAddr : ERef → String
  | [] => ""
  | n :: _ => n.addr

/-- `ocfl.Select`. -/
structure Select where
  type : EType
  head : Bool
deriving Repr, DecidableEq

/-- `scope`: resolved root, start entity, desired filter. -/
structure Scope where
  root : ERef
  startFrom : ERef
  desired : Select
deriving Repr, DecidableEq

/-- The inner loop of `contains`: walk both chains comparing IDs while
both still have parents. -/
def cmpChains : ERef → ERef → Bool
  | a :: pa :: ra, b :: pb :: rb =>
    if a.id ≠ b.id then false else cmpChains (pa :: ra) (pb :: rb)
  | _, _ => true

/-- The outer loop of `contains`: for every ancestor of the entity that
still has a parent, on an id/type match with the start entity run the
inner comparison — a mismatch aborts the whole test with `false` (the
`none` result), otherwise the entity counts as under the start. -/
def containsLoop (sfh : Node) (sf : ERef) : ERef → Bool → Option Bool
  | [], acc => some acc
  | [_], acc => some acc
  | n :: p :: rest, acc =>
    if n.id = sfh.id ∧ n.ty = sfh.ty then
      if cmpChains sf (n :: p :: rest) then containsLoop sfh sf (p :: rest) true
      else none
    else containsLoop sfh sf (p :: rest) acc

/-- `scope.contains`. -/
def scontains (s : Scope) (entity : ERef) : Bool :=
  match s.startFrom with
  | [] => false
  | sfh :: sfRest =>
    match containsLoop sfh (sfh :: sfRest) entity (sfh.ty == EType.Root) with
    | none => false
    | some under =>
      under && (s.desired.type == chainTy entity || s.desired.type == EType.Any)

/-- A directory tree standing in for the filesystem under the walk's
start path.  A directory carries the parse result of its
`inventory.json` (`none`: absent or corrupt). -/
inductive FsTree where
  | dir (name : String) (inv : Option Inventory) (entries : List FsTree)
  | file (name : String)
deriving Repr

def FsTree.name : FsTree → String
  | .dir n _ _ => n
  | .file n => n

/-- Whether a directory holds the object-root marker file (the pure
content of `isRoot(ospath, ocfl.Object)` during a walk). -/
def hasObjMarker (entries : List FsTree) : Bool :=
  entries.any fun e =>
    match e with
    | .file n => n == "0=ocfl_object_1.0"
    | _ => false

/-- Errors a walk can produce: a callback error, a context-wrapped
error (`errors.Wrap`), a failed inventory read, or a failed
`findRoot`. -/
inductive WalkErr (ε : Type) where
  | cb (e : ε)
  | wrapped (msg : String) (cause : WalkErr ε)
  | metadataErr (addr : String)
  | findRootErr (addr : String)
deriving Repr, DecidableEq

/-- A walk computation's observable outcome: the entities the callback
was invoked on, in order, and the error result. -/
abbrev WalkM (ε : Type) := List ERef × Option (WalkErr ε)

/-- Invoke the callback on one entity (`err := f(ref); if err != nil
return err`). -/
def emitW {ε : Type} (cb : ERef → Except ε Unit) (r : ERef) : WalkM ε :=
  match cb r with
  | .ok _ => ([r], none)
  | .error e => ([r], some (.cb e))

/-- Sequence two walk steps, stopping at the first error (Go's
`if err != nil { return err }` pattern). -/
def seqW {ε : Type} (a : WalkM ε) (b : Unit → WalkM ε) : WalkM ε :=
  match a with
  | (log, some e) => (log, some e)
  | (log, none) =>
    let r := b ()
    (log ++ r.1, r.2)

def trimPfx (s pfx : String) : String :=
  if strHasPfx s pfx then String.mk (s.data.drop pfx.data.length) else s

/-- `strings.TrimPrefix(filepath.ToSlash(strings.TrimPrefix(addr, root)), "/")`. -/
def relPath (root addr : String) : String := trimPfx (trimPfx addr root) "/"

/-- `findRoot`'s cheap path: scan the parent chain for the desired
type (for `Object` there is no crawl fallback, so a miss is an error). -/
def findRootChain : ERef → EType → Option ERef
  | [], _ => none
  | n :: rest, t => if n.ty = t then some (n :: rest) else findRootChain rest t

/-- Inner loop of `walkVersions` over one version's files (note the Go
code discards `Files`'s error and iterates whatever partial slice came
back). -/
def filesLoop {ε : Type} (s : Scope) (cb : ERef → Except ε Unit)
    (objAddr : String) (version : ERef) : List GoFile → WalkM ε
  | [] => ([], none)
  | file :: rest =>
    let fileRef : ERef := ⟨file.logicalPath, objAddr ++ "/" ++ file.physicalPath, .File⟩ :: version
    if !(scontains s fileRef) then filesLoop s cb objAddr version rest
    else seqW (emitW cb fileRef) (fun _ => filesLoop s cb objAddr version rest)

/-- `scope.walkVersions`. -/
def walkVersionsLoop {ε : Type} (s : Scope) (cb : ERef → Except ε Unit)
    (inv : Inventory) (object : ERef) : List (String × GoVersion) → WalkM ε
  | [] => ([], none)
  | (vID, _) :: rest =>
    if s.desired.head && vID != inv.head then walkVersionsLoop s cb inv object rest
    else
      let version : ERef := ⟨vID, chainAddr object ++ "/" ++ vID, .Version⟩ :: object
      seqW (if scontains s version then emitW cb version else ([], none)) (fun _ =>
        seqW (if s.desired.type.val ≤ EType.File.val then
                filesLoop s cb (chainAddr object) version (Inventory.Files inv vID).1
              else ([], none))
          (fun _ => walkVersionsLoop s cb inv object rest))

/-- `scope.walkObject`: read the inventory (fatal when missing or
corrupt), emit the object when in scope, then walk its versions when
the filter wants versions or files. -/
def walkObject {ε : Type} (s : Scope) (cb : ERef → Except ε Unit)
    (path : String) (inv? : Option Inventory) : WalkM ε :=
  match inv? with
  | none => ([], some (.metadataErr path))
  | some inv =>
    let object : ERef := ⟨inv.id, path, .Object⟩ :: s.root
    seqW (if scontains s object then emitW cb object else ([], none)) (fun _ =>
      if s.desired.type.val ≤ EType.Version.val then
        walkVersionsLoop s cb inv object inv.versions
      else ([], none))

/-- The callback `scope.walk` hands to `fsWalk`: regular files are
terminal; a directory with the object marker is walked through its
manifest and not descended into; other directories may emit an
Intermediate entity and are descended. -/
def scopeCb {ε : Type} (s : Scope) (cb : ERef → Except ε Unit)
    (ospath : String) (t : FsTree) : Bool × WalkM ε :=
  match t with
  | .file _ => (true, ([], none))
  | .dir _ inv? entries =>
    if hasObjMarker entries then (true, walkObject s cb ospath inv?)
    else
      if ospath ≠ chainAddr s.root ∧
          scontains s [⟨"", "", EType.Intermediate⟩] = true then
        let ref : ERef := ⟨relPath (chainAddr s.root) ospath, ospath, .Intermediate⟩ :: s.root
        match cb ref with
        | .error e => (true, ([ref], some (.cb e)))
        | .ok _ => (false, ([ref], none))
      else (false, ([], none))

mutual

/-- `fsWalk`/`godirwalk.Walk`: pre-order traversal; a callback error is
wrapped once (`"terminating walk due to error"`) and halts the whole
walk; `terminal` skips the children.  The traversal burns one unit of
fuel per step so that the recursion is structural (and closed walks
kernel-evaluate); any fuel at least the number of tree nodes plus its
depth reproduces the Go recursion exactly, and fuel exhaustion yields
an empty successful walk. -/
def fsWalkF {ε : Type} (cbf : String → FsTree → Bool × WalkM ε) :
    Nat → String → FsTree → WalkM ε
  | 0, _, _ => ([], none)
  | fuel + 1, addr, t =>
    match cbf addr t with
    | (_, (log, some e)) => (log, some (.wrapped "terminating walk due to error" e))
    | (terminal, (log, none)) =>
      if terminal then (log, none)
      else
        match t with
        | .file _ => (log, none)
        | .dir _ _ entries =>
          let r := fsWalkChildren cbf fuel (addr ++ "/") entries
          (log ++ r.1, r.2)

/-- Children of a directory, walked left to right, stopping at the
first error. -/
def fsWalkChildren {ε : Type} (cbf : String → FsTree → Bool × WalkM ε) :
    Nat → String → List FsTree → WalkM ε
  | 0, _, _ => ([], none)
  | _ + 1, _, [] => ([], none)
  | fuel + 1, pfxAddr, c :: rest =>
    match fsWalkF cbf fuel (pfxAddr ++ c.name) c with
    | (log, some e) => (log, some e)
    | (log, none) =>
      let r := fsWalkChildren cbf fuel pfxAddr rest
      (log ++ r.1, r.2)

end

/-- `scope.walk`: resolve the start node (finding the object root when
starting below object level), emit the root entity (a callback error
here returns unchanged), then walk the filesystem; an `fsWalk` error is
wrapped once more (`"error performing walk"`). -/
def scopeWalkFs {ε : Type} (fuel : Nat) (s : Scope) (tree : FsTree)
    (cb : ERef → Except ε Unit) (node : ERef) (log : List ERef) : WalkM ε :=
  match fsWalkF (scopeCb s cb) fuel
      (if chainAddr node = "" then chainAddr s.root else chainAddr node) tree with
  | (rlog, some e) => (log ++ rlog, some (.wrapped "error performing walk" e))
  | (rlog, none) => (log ++ rlog, none)

def scopeWalkFrom {ε : Type} (fuel : Nat) (s : Scope) (tree : FsTree)
    (cb : ERef → Except ε Unit) (node : ERef) : WalkM ε :=
  match (if chainTy node = EType.Root ∧ scontains s node = true
         then emitW cb node else ([], none)) with
  | (log, some e) => (log, some e)
  | (log, none) => scopeWalkFs fuel s tree cb node log

def scopeWalk {ε : Type} (fuel : Nat) (s : Scope) (tree : FsTree) (cb : ERef → Except ε Unit) : WalkM ε :=
  match (if (chainTy s.startFrom).val < EType.Object.val
         then findRootChain s.startFrom EType.Object else some s.startFrom) with
  | none => ([], some (.findRootErr (chainAddr s.startFrom)))
  | some node => scopeWalkFrom fuel s tree cb node


/-- The callback error, if any, at the root of a walk error's wrap
chain (`errors.Cause`). -/
def cbCause {ε : Type} : WalkErr ε → Option ε
  | .cb e => some e
  | .wrapped _ w => cbCause w
  | .metadataErr _ => none
  | .findRootErr _ => none

/-- The walk-abort invariant: on success every logged entity's callback
invocation succeeded; on an error either the log ends exactly at an
entity whose callback failed — every earlier invocation succeeded, and
that callback error is the cause of the returned error — or no callback
ever failed and the error is structural (no callback error inside). -/
def GoodW {ε : Type} (cb : ERef → Except ε Unit) (m : WalkM ε) : Prop :=
  match m.2 with
  | none => ∀ r ∈ m.1, cb r = .ok ()
  | some w =>
    (∃ e pre last, m.1 = pre ++ [last] ∧ cb last = .error e ∧
      (∀ x ∈ pre, cb x = .ok ()) ∧ cbCause w = some e) ∨
    ((∀ r ∈ m.1, cb r = .ok ()) ∧ cbCause w = none)

/-- Fixtures for claim C6: an OCFL root at `/r` holding one object with
one version, walked for all entity types, with a callback that fails on
the object entity. -/
def rootChain6 : ERef := [⟨"", "/r", EType.Root⟩]

def scope6 : Scope :=
  { root := rootChain6, startFrom := rootChain6, desired := { type := .Any, head := false } }

def invObj6 : Inventory :=
  { id := "test:obj", type := "Object", digestAlgorithm := "sha512", head := "v1",
    manifest := [("d1", ["v1/content/a.txt"])],
    versions := [("v1", mkVer [("d1", ["a.txt"])])], fixity := [] }

def tree6 : FsTree :=
  .dir "r" none [.dir "obj" (some invObj6) [.file "0=ocfl_object_1.0", .file "inventory.json"]]

def cb6 : ERef → Except Nat Unit := fun r =>
  if chainTy r = EType.Object then .error 0 else .ok ()

/-! # Theorems

Supporting lemmas first, then one theorem per claim (with witnesses and
counterexamples where required). -/

theorem char_eq_of_toNat_eq {a b : Char} (h : a.toNat = b.toNat) : a = b :=
  Char.ext (UInt32.toNat.inj h)

theorem goLtChars_cons (a b : Char) (as bs : List Char) :
    goLtChars (a :: as) (b :: bs) =
      (if a.toNat < b.toNat then true
       else if b.toNat < a.toNat then false
       else goLtChars as bs) := rfl

theorem goLtChars_asymm : ∀ {a b : List Char}, goLtChars a b = true → goLtChars b a = false
  | [], [], h => by simp [goLtChars] at h
  | [], _ :: _, _ => by simp [goLtChars]
  | _ :: _, [], h => by simp [goLtChars] at h
  | a :: as, b :: bs, h => by
    rw [goLtChars_cons] at h ⊢
    rcases Nat.lt_trichotomy a.toNat b.toNat with h1 | h1 | h1
    · rw [if_pos h1] at h
      rw [if_neg (by omega), if_pos h1]
    · rw [if_neg (by omega), if_neg (by omega)] at h ⊢
      exact goLtChars_asymm h
    · rw [if_neg (by omega), if_pos h1] at h
      exact absurd h (by simp)

theorem goLtChars_trichotomy : ∀ (a b : List Char),
    goLtChars a b = true ∨ goLtChars b a = true ∨ a = b
  | [], [] => by simp [goLtChars]
  | [], _ :: _ => by simp [goLtChars]
  | _ :: _, [] => by simp [goLtChars]
  | a :: as, b :: bs => by
    rcases Nat.lt_trichotomy a.toNat b.toNat with h1 | h1 | h1
    · exact Or.inl (by rw [goLtChars_cons, if_pos h1])
    · have hch : a = b := char_eq_of_toNat_eq h1
      rcases goLtChars_trichotomy as bs with h | h | h
      · exact Or.inl (by rw [goLtChars_cons, if_neg (by omega), if_neg (by omega)]; exact h)
      · exact Or.inr (Or.inl (by rw [goLtChars_cons, if_neg (by omega), if_neg (by omega)]; exact h))
      · exact Or.inr (Or.inr (by rw [hch, h]))
    · exact Or.inr (Or.inl (by rw [goLtChars_cons, if_pos h1]))

theorem goLtChars_trans : ∀ {a b c : List Char},
    goLtChars a b = true → goLtChars b c = true → goLtChars a c = true
  | [], _, _ :: _, _, _ => by simp [goLtChars]
  | [], [], [], h, _ => by simp [goLtChars] at h
  | [], _ :: _, [], _, h => by simp [goLtChars] at h
  | _ :: _, [], _, h, _ => by simp [goLtChars] at h
  | _ :: _, _ :: _, [], _, h => by simp [goLtChars] at h
  | a :: as, b :: bs, c :: cs, hab, hbc => by
    rw [goLtChars_cons] at hab hbc ⊢
    rcases Nat.lt_trichotomy a.toNat b.toNat with h1 | h1 | h1 <;>
      rcases Nat.lt_trichotomy b.toNat c.toNat with h2 | h2 | h2
    · rw [if_pos (by omega)]
    · rw [if_pos (by omega)]
    · rw [if_neg (by omega), if_pos h2] at hbc
      exact absurd hbc (by simp)
    · rw [if_pos (by omega)]
    · rw [if_neg (by omega), if_neg (by omega)] at hab hbc ⊢
      exact goLtChars_trans hab hbc
    · rw [if_neg (by omega), if_pos h2] at hbc
      exact absurd hbc (by simp)
    · rw [if_neg (by omega), if_pos h1] at hab
      exact absurd hab (by simp)
    · rw [if_neg (by omega), if_pos h1] at hab
      exact absurd hab (by simp)
    · rw [if_neg (by omega), if_pos h1] at hab
      exact absurd hab (by simp)

theorem goLe_trans {a b c : String} (h1 : goLe a b = true) (h2 : goLe b c = true) :
    goLe a c = true := by
  simp only [goLe, goLt, Bool.not_eq_true'] at h1 h2 ⊢
  by_contra h
  simp only [Bool.not_eq_false] at h
  rcases goLtChars_trichotomy a.data b.data with hab | hab | hab
  · have := goLtChars_trans h hab
    rw [h2] at this; exact Bool.false_ne_true this
  · rw [h1] at hab; exact Bool.false_ne_true hab
  · rw [hab] at h; rw [h2] at h; exact Bool.false_ne_true h

theorem goLe_total (a b : String) : (goLe a b || goLe b a) = true := by
  simp only [goLe, goLt, Bool.or_eq_true, Bool.not_eq_true']
  rcases goLtChars_trichotomy a.data b.data with h | h | h
  · exact Or.inl (goLtChars_asymm h)
  · exact Or.inr (goLtChars_asymm h)
  · exact Or.inl (by rw [h]; cases hq : goLtChars b.data b.data with
      | false => rfl
      | true => exact absurd (goLtChars_asymm hq) (by rw [hq]; simp))

theorem goLe_antisymm {a b : String} (h1 : goLe a b = true) (h2 : goLe b a = true) :
    a = b := by
  simp only [goLe, goLt, Bool.not_eq_true'] at h1 h2
  rcases goLtChars_trichotomy a.data b.data with h | h | h
  · rw [h2] at h; exact absurd h (by simp)
  · rw [h1] at h; exact absurd h (by simp)
  · exact String.ext h

/-- The empty string is `<=` (Go order) every string. -/
theorem goLe_empty (s : String) : goLe "" s = true := by
  simp only [goLe, goLt, Bool.not_eq_true']
  show goLtChars s.data [] = false
  cases s.data <;> rfl


theorem alookup_ainsert_self {β : Type} (k : String) (v : β) (l : List (String × β)) :
    alookup k (ainsert k v l) = some v := by
  induction l with
  | nil => simp [ainsert, alookup]
  | cons hd tl ih =>
    obtain ⟨k', v'⟩ := hd
    by_cases h : k = k' <;> simp [ainsert, alookup, h, ih]

theorem alookup_ainsert_ne {β : Type} {k k' : String} (v : β) (l : List (String × β))
    (h : k ≠ k') : alookup k (ainsert k' v l) = alookup k l := by
  induction l with
  | nil => simp [ainsert, alookup, h]
  | cons hd tl ih =>
    obtain ⟨k'', v''⟩ := hd
    by_cases h2 : k' = k''
    · subst h2; simp [ainsert, alookup, h]
    · by_cases h3 : k = k'' <;> simp [ainsert, alookup, h2, h3, ih]


/-! ## Sorting lemmas for the physical-path selection -/

theorem goLe_refl (a : String) : goLe a a = true := by
  have := goLe_total a a
  simpa using this

theorem insertSorted_perm (x : String) (l : List String) :
    (insertSorted x l).Perm (x :: l) := by
  induction l with
  | nil => simp [insertSorted]
  | cons y ys ih =>
    unfold insertSorted
    by_cases h : goLe x y = true
    · simp [h]
    · simp only [h, if_false]
      exact List.Perm.trans (List.Perm.cons y ih) (List.Perm.swap x y ys)

theorem sortStrings_perm (l : List String) : (sortStrings l).Perm l := by
  induction l with
  | nil => simp [sortStrings]
  | cons x xs ih =>
    exact List.Perm.trans (insertSorted_perm x (sortStrings xs)) (List.Perm.cons x ih)

theorem insertSorted_sorted (x : String) (l : List String)
    (h : List.Pairwise (fun a b => goLe a b = true) l) :
    List.Pairwise (fun a b => goLe a b = true) (insertSorted x l) := by
  induction l with
  | nil => simp [insertSorted]
  | cons y ys ih =>
    rcases List.pairwise_cons.mp h with ⟨hy, hys⟩
    unfold insertSorted
    by_cases hxy : goLe x y = true
    · rw [if_pos hxy]
      refine List.pairwise_cons.mpr ⟨?_, h⟩
      intro b hb
      rcases hb with _ | hb
      · exact hxy
      · exact goLe_trans hxy (hy b (by assumption))
    · rw [if_neg hxy]
      refine List.pairwise_cons.mpr ⟨?_, ih hys⟩
      intro b hb
      have hmem := (insertSorted_perm x ys).mem_iff.mp hb
      rcases List.mem_cons.mp hmem with hbx | hmem
      · rw [hbx]
        rcases Bool.or_eq_true _ _ |>.mp (goLe_total x y) with h1 | h1
        · exact absurd h1 hxy
        · exact h1
      · exact hy b hmem

theorem sortStrings_sorted (l : List String) :
    List.Pairwise (fun a b => goLe a b = true) (sortStrings l) := by
  induction l with
  | nil => simp [sortStrings]
  | cons x xs ih => exact insertSorted_sorted x (sortStrings xs) ih

theorem getLast_is_max (l : List String) (m : String)
    (hs : List.Pairwise (fun a b => goLe a b = true) l)
    (hlast : l.getLast? = some m) :
    ∀ x ∈ l, goLe x m = true := by
  rcases List.getLast?_eq_some_iff.mp hlast with ⟨ys, rfl⟩
  intro x hx
  rcases List.mem_append.mp hx with hx | hx
  · have := List.pairwise_append.mp hs
    exact this.2.2 x hx m (by simp)
  · rcases List.mem_singleton.mp hx with rfl
    exact goLe_refl _

theorem selectPhysicalPath_char (version p0 : String) (ppaths : List String)
    (hlen : 1 < ppaths.length) :
    (selectPhysicalPath version ppaths p0 ∈ "" :: pathCandidates version ppaths) ∧
    (∀ c ∈ pathCandidates version ppaths,
      goLe c (selectPhysicalPath version ppaths p0) = true) ∧
    (pathCandidates version ppaths ≠ [] →
      selectPhysicalPath version ppaths p0 ∈ pathCandidates version ppaths) ∧
    (pathCandidates version ppaths = [] → selectPhysicalPath version ppaths p0 = "") := by
  have hsel : selectPhysicalPath version ppaths p0 =
      match (sortStrings (List.replicate ppaths.length "" ++
        pathCandidates version ppaths)).getLast? with
      | some last => last
      | none => p0 := by
    unfold selectPhysicalPath
    rw [if_pos hlen]
  set spaths := List.replicate ppaths.length "" ++ pathCandidates version ppaths with hsp
  have hlenp : 0 < spaths.length := by
    rw [hsp]
    simp only [List.length_append, List.length_replicate]
    omega
  have hlen2 : 0 < (sortStrings spaths).length := by
    rw [(sortStrings_perm spaths).length_eq]
    exact hlenp
  obtain ⟨m, hm⟩ : ∃ m, (sortStrings spaths).getLast? = some m := by
    cases hq : (sortStrings spaths).getLast? with
    | some m => exact ⟨m, rfl⟩
    | none =>
      rw [List.getLast?_eq_none_iff] at hq
      rw [hq] at hlen2
      simp at hlen2
  have hselm : selectPhysicalPath version ppaths p0 = m := by rw [hsel, hm]
  have hmmem : m ∈ spaths := by
    refine (sortStrings_perm spaths).mem_iff.mp ?_
    rcases List.getLast?_eq_some_iff.mp hm with ⟨ys, hys⟩
    rw [hys]
    simp
  have hmax : ∀ x ∈ spaths, goLe x m = true := by
    intro x hx
    exact getLast_is_max _ m (sortStrings_sorted spaths)
      hm x ((sortStrings_perm spaths).mem_iff.mpr hx)
  have hcases : m = "" ∨ m ∈ pathCandidates version ppaths := by
    rcases List.mem_append.mp hmmem with h | h
    · exact Or.inl (List.eq_of_mem_replicate h)
    · exact Or.inr h
  rw [hselm]
  refine ⟨?_, ?_, ?_, ?_⟩
  · rcases hcases with h | h
    · rw [h]; exact List.mem_cons_self _ _
    · exact List.mem_cons_of_mem _ h
  · intro c hc
    exact hmax c (by rw [hsp]; exact List.mem_append_right _ hc)
  · intro hne
    rcases hcases with h | h
    · obtain ⟨c, cs, hcc⟩ : ∃ c cs, pathCandidates version ppaths = c :: cs := by
        cases hpc : pathCandidates version ppaths with
        | nil => exact absurd hpc hne
        | cons c cs => exact ⟨c, cs, rfl⟩
      have hcmem : c ∈ pathCandidates version ppaths := by
        rw [hcc]; exact List.mem_cons_self _ _
      have hcm : goLe c m = true :=
        hmax c (by rw [hsp]; exact List.mem_append_right _ hcmem)
      have hmc : goLe m c = true := by rw [h]; exact goLe_empty c
      have hceq : c = m := goLe_antisymm hcm hmc
      exact hceq ▸ hcmem
    · exact h
  · intro hemp
    rcases hcases with h | h
    · exact h
    · rw [hemp] at h
      exact absurd h (List.not_mem_nil m)

theorem filesInner_mem_some (inv : Inventory) (version : String) (digest : Digest)
    (p0 : String) (ps : List String)
    (hm : alookup digest inv.manifest = some (p0 :: ps)) :
    ∀ (lps : List String) (acc : List GoFile) (f : GoFile),
    f ∈ (filesInner inv version digest acc lps).1 →
    f ∈ acc ∨ ∃ lp ∈ lps, f = ⟨lp, selectPhysicalPath version (p0 :: ps) p0⟩
  | [], acc, f, h => Or.inl h
  | lp :: rest, acc, f, h => by
    unfold filesInner at h
    rw [hm] at h
    have h2 := filesInner_mem_some inv version digest p0 ps hm rest _ f h
    rcases h2 with hacc | ⟨lp2, hlp2, hfe⟩
    · rcases List.mem_append.mp hacc with h1 | h1
      · exact Or.inl h1
      · rcases List.mem_singleton.mp h1 with rfl
        exact Or.inr ⟨lp, by simp, rfl⟩
    · exact Or.inr ⟨lp2, List.mem_cons_of_mem _ hlp2, hfe⟩

theorem filesInner_mem_none (inv : Inventory) (version : String) (digest : Digest)
    (hm : ∀ p0 ps, alookup digest inv.manifest ≠ some (p0 :: ps)) :
    ∀ (lps : List String) (acc : List GoFile) (f : GoFile),
    f ∈ (filesInner inv version digest acc lps).1 → f ∈ acc
  | [], _, _, h => h
  | _ :: _, acc, f, h => by
    unfold filesInner at h
    cases hq : alookup digest inv.manifest with
    | none => rw [hq] at h; exact h
    | some ppaths =>
      cases ppaths with
      | nil => rw [hq] at h; exact h
      | cons p0 ps => exact absurd hq (hm p0 ps)

theorem filesInner_mem (inv : Inventory) (version : String) (digest : Digest)
    (lps : List String) (acc : List GoFile) (f : GoFile)
    (h : f ∈ (filesInner inv version digest acc lps).1) :
    f ∈ acc ∨ ∃ p0 ps, alookup digest inv.manifest = some (p0 :: ps) ∧
      ∃ lp ∈ lps, f = ⟨lp, selectPhysicalPath version (p0 :: ps) p0⟩ := by
  cases hm : alookup digest inv.manifest with
  | none =>
    exact Or.inl (filesInner_mem_none inv version digest
      (fun p0 ps hq => by rw [hm] at hq; exact Option.noConfusion hq) lps acc f h)
  | some ppaths =>
    cases ppaths with
    | nil =>
      exact Or.inl (filesInner_mem_none inv version digest
        (fun p0 ps hq => by rw [hm] at hq; simp at hq) lps acc f h)
    | cons p0 ps =>
      rcases filesInner_mem_some inv version digest p0 ps hm lps acc f h with h1 | ⟨lp, hlp, hfe⟩
      · exact Or.inl h1
      · exact Or.inr ⟨p0, ps, rfl, lp, hlp, hfe⟩

theorem filesOuter_mem (inv : Inventory) (version : String) :
    ∀ (st : List (Digest × List String)) (acc : List GoFile) (f : GoFile),
    f ∈ (filesOuter inv version acc st).1 →
    f ∈ acc ∨ ∃ digest p0 ps, alookup digest inv.manifest = some (p0 :: ps) ∧
      ∃ lp, f = ⟨lp, selectPhysicalPath version (p0 :: ps) p0⟩
  | [], _, f, h => Or.inl h
  | (digest, lps) :: rest, acc, f, h => by
    unfold filesOuter at h
    cases hfi : filesInner inv version digest acc lps with
    | mk fs e =>
      rw [hfi] at h
      have hinner : f ∈ fs →
          f ∈ acc ∨ ∃ d p0 ps, alookup d inv.manifest = some (p0 :: ps) ∧
            ∃ lp, f = ⟨lp, selectPhysicalPath version (p0 :: ps) p0⟩ := by
        intro hf
        have h3 := filesInner_mem inv version digest lps acc f (by rw [hfi]; exact hf)
        rcases h3 with h3 | ⟨p0, ps, hm, lp, _, hfe⟩
        · exact Or.inl h3
        · exact Or.inr ⟨digest, p0, ps, hm, lp, hfe⟩
      cases e with
      | some err => exact hinner h
      | none =>
        have h2 := filesOuter_mem inv version rest fs f h
        rcases h2 with hf | hrest
        · exact hinner hf
        · exact Or.inr hrest

theorem files_physicalPath (inv : Inventory) (version : String) (f : GoFile)
    (hf : f ∈ (Inventory.Files inv version).1) :
    ∃ digest p0 ps, alookup digest inv.manifest = some (p0 :: ps) ∧
      f.physicalPath = selectPhysicalPath version (p0 :: ps) p0 := by
  unfold Inventory.Files at hf
  cases hv : alookup version inv.versions with
  | none => rw [hv] at hf; simp at hf
  | some v =>
    rw [hv] at hf
    have h2 := filesOuter_mem inv version v.state [] f hf
    rcases h2 with h | ⟨digest, p0, ps, hm, lp, hfe⟩
    · simp at h
    · exact ⟨digest, p0, ps, hm, by rw [hfe]⟩

/-! ## Claim C1 -/

/-- Claim C1 (corrected): every physical path that `Files` reports comes
from the deterministic selection function applied to the manifest's path
list for the file's digest; and that selection does NOT pick "the most
recent path whose residing version number is at most the queried
version".  What it does, whenever the digest has more than one physical
path, is: a path is a candidate when the queried version name is
lexically greater than the whole path string (Go string `>`), or the
path starts with `version + "/"`; the selected path is the lexically
greatest candidate, and when no candidate exists the selection is the
empty string (an artifact of sorting a slice pre-filled by `make` with
empty strings).  The choice is a pure function of the inputs, hence
deterministic. -/
theorem C1_files_selection_amended :
    (∀ (inv : Inventory) (version : String) (f : GoFile),
      f ∈ (Inventory.Files inv version).1 →
      ∃ digest p0 ps, alookup digest inv.manifest = some (p0 :: ps) ∧
        f.physicalPath = selectPhysicalPath version (p0 :: ps) p0) ∧
    (∀ (version p0 : String) (ppaths : List String), 1 < ppaths.length →
      (selectPhysicalPath version ppaths p0 ∈ "" :: pathCandidates version ppaths) ∧
      (∀ c ∈ pathCandidates version ppaths,
        goLe c (selectPhysicalPath version ppaths p0) = true) ∧
      (pathCandidates version ppaths ≠ [] →
        selectPhysicalPath version ppaths p0 ∈ pathCandidates version ppaths) ∧
      (pathCandidates version ppaths = [] → selectPhysicalPath version ppaths p0 = "")) :=
  ⟨files_physicalPath, fun version p0 ppaths hlen => selectPhysicalPath_char version p0 ppaths hlen⟩

/-- Claim C1, counterexample to the claim as stated: in `invC1` the
digest `d1` has two physical paths, residing under versions 1 and 10;
querying version `v2`, the claim demands the `v1` path (the only one
whose residing version 1 is at most 2; 10 is not), but `Files` returns
the `v10` path, because `"v2" > "v10/content/f.txt"` holds lexically. -/
theorem C1_counterexample :
    Inventory.Files invC1 "v2" = ([⟨"f.txt", "v10/content/f.txt"⟩], none) ∧
    alookup "d1" invC1.manifest = some ["v1/content/f.txt", "v10/content/f.txt"] ∧
    specResidingVersion "v10/content/f.txt" = some 10 ∧
    ¬ (10 ≤ 2) ∧
    specResidingVersion "v1/content/f.txt" = some 1 ∧
    (1 ≤ 2) :=
  ⟨rfl, rfl, by decide, by decide, by decide, by decide⟩

/-- Witness for `C1_files_selection_amended` at the `invC1` candidate
list: the selected path is the empty string or a filter candidate. -/
theorem C1_witness :
    selectPhysicalPath "v2" ["v1/content/f.txt", "v10/content/f.txt"] "v1/content/f.txt" ∈
      "" :: pathCandidates "v2" ["v1/content/f.txt", "v10/content/f.txt"] :=
  (C1_files_selection_amended.2 "v2" "v1/content/f.txt"
    ["v1/content/f.txt", "v10/content/f.txt"] (by decide)).1

theorem alookup_none_of_notmem {β : Type} (k : String) (l : List (String × β))
    (h : k ∉ l.map Prod.fst) : alookup k l = none := by
  induction l with
  | nil => rfl
  | cons hd tl ih =>
    obtain ⟨k', v'⟩ := hd
    simp only [List.map_cons, List.mem_cons] at h
    push_neg at h
    simp [alookup, h.1, ih h.2]

theorem count_map_mkhit (n vn lp : String) (ps : List String) :
    ((ps.map (FileHit.mk n)).count ⟨vn, lp⟩) = if n = vn then ps.count lp else 0 := by
  induction ps with
  | nil => simp
  | cons p rest ih =>
    simp only [List.map_cons, List.count_cons, ih, beq_iff_eq, FileHit.mk.injEq]
    by_cases hn : n = vn
    · subst hn
      simp [List.count_cons, eq_comm]
    · have hno : ¬ (vn = n ∧ lp = p) := fun hq => hn hq.1.symm
      simp [hn, hno]

theorem state_flatMap_nil (digest n : String) (st : List (Digest × List String))
    (hd : ∀ e ∈ st, e.1 ≠ digest) :
    (st.flatMap fun e => if e.1 = digest then e.2.map (FileHit.mk n) else []) = [] := by
  induction st with
  | nil => rfl
  | cons e rest ih =>
    simp only [List.flatMap_cons]
    rw [if_neg (hd e (by simp)), ih (fun e' he' => hd e' (by simp [he']))]
    rfl

theorem count_state_flatMap (digest vn lp n : String) (st : List (Digest × List String))
    (hnd : (st.map Prod.fst).Nodup) :
    ((st.flatMap fun e => if e.1 = digest then e.2.map (FileHit.mk n) else []).count ⟨vn, lp⟩)
      = (if n = vn then
          (match alookup digest st with
           | some ps => ps.count lp
           | none => 0) else 0) := by
  induction st with
  | nil => simp [alookup]
  | cons e rest ih =>
    obtain ⟨d, ps⟩ := e
    simp only [List.map_cons, List.nodup_cons] at hnd
    simp only [List.flatMap_cons, List.count_append]
    by_cases hdig : d = digest
    · subst hdig
      rw [if_pos rfl]
      rw [state_flatMap_nil d n rest (fun e' he' hq => hnd.1 (by rw [← hq]; exact List.mem_map_of_mem _ he'))]
      simp only [List.count_nil, Nat.add_zero]
      rw [count_map_mkhit]
      simp [alookup]
    · rw [if_neg hdig, ih hnd.2]
      have halo : alookup digest ((d, ps) :: rest) = alookup digest rest := by
        show (if digest = d then some ps else alookup digest rest) = alookup digest rest
        rw [if_neg (fun h : digest = d => hdig h.symm)]
      rw [halo]
      simp


theorem mem_of_alookup_eq_some {β : Type} {k : String} {v : β} :
    ∀ {l : List (String × β)}, alookup k l = some v → (k, v) ∈ l
  | [], h => by simp [alookup] at h
  | (k', v') :: rest, h => by
    by_cases hk : k = k'
    · subst hk
      have hv : some v' = some v := by
        rw [← h]
        show some v' = (if k = k then some v' else _)
        rw [if_pos rfl]
      simp only [Option.some.injEq] at hv
      subst hv
      exact List.mem_cons_self _ _
    · have hs : alookup k ((k', v') :: rest) = alookup k rest := by
        show (if k = k' then some v' else alookup k rest) = _
        rw [if_neg hk]
      rw [hs] at h
      exact List.mem_cons_of_mem _ (mem_of_alookup_eq_some h)

theorem count_versions_flatMap (digest vn lp : String) (vs : List (String × GoVersion))
    (hvnd : (vs.map Prod.fst).Nodup)
    (hsnd : ∀ v ∈ vs, (v.2.state.map Prod.fst).Nodup)
    (hpnd : ∀ v ∈ vs, ∀ e ∈ v.2.state, e.2.Nodup) :
    ((vs.flatMap fun ver => ver.2.state.flatMap fun e =>
        if e.1 = digest then e.2.map (FileHit.mk ver.1) else []).count ⟨vn, lp⟩) =
      (match alookup vn vs with
       | some ver =>
         (match alookup digest ver.state with
          | some ps => if lp ∈ ps then 1 else 0
          | none => 0)
       | none => 0) := by
  induction vs with
  | nil => simp [alookup]
  | cons v rest ih =>
    obtain ⟨n, ver⟩ := v
    simp only [List.map_cons, List.nodup_cons] at hvnd
    simp only [List.flatMap_cons, List.count_append]
    rw [count_state_flatMap digest vn lp n ver.state (hsnd (n, ver) (by simp))]
    rw [ih hvnd.2 (fun v' hv' => hsnd v' (by simp [hv'])) (fun v' hv' => hpnd v' (by simp [hv']))]
    by_cases hn : n = vn
    · subst hn
      have h1 : alookup n ((n, ver) :: rest) = some ver := by
        show (if n = n then some ver else _) = some ver
        rw [if_pos rfl]
      have h2 : alookup n rest = none := alookup_none_of_notmem n rest hvnd.1
      rw [h1, h2, if_pos rfl]
      cases halo : alookup digest ver.state with
      | none => simp [halo]
      | some qs =>
        have hqnd : qs.Nodup :=
          hpnd (n, ver) (by simp) (digest, qs) (mem_of_alookup_eq_some halo)
        by_cases hmem : lp ∈ qs
        · simp only [halo]
          rw [List.count_eq_one_of_mem hqnd hmem]
          simp [hmem]
        · simp only [halo]
          rw [List.count_eq_zero_of_not_mem hmem]
          simp [hmem]
    · rw [if_neg hn]
      have h1 : alookup vn ((n, ver) :: rest) = alookup vn rest := by
        show (if vn = n then some ver else alookup vn rest) = alookup vn rest
        rw [if_neg (fun h : vn = n => hn h.symm)]
      rw [h1]
      simp


/-! ## Claim C2 -/

/-- Claim C2 (confirmed): for a physical content file, the `resolve`
fan-out emits exactly one `File` entity per (version, logical path) pair
such that the version's state maps the file's digest to that logical
path: the multiset count of each pair among the emitted entities is 1
when the pair is so recorded and 0 otherwise (inventory map keys and
path lists duplicate-free, as Go maps guarantee).  In particular, the
spec's scenario — two logical names in `v1` carried forward through
`v2` and `v3` — yields exactly 4 entities. -/
theorem C2_resolve_fanout (inv : Inventory) (relpath vn lp : String)
    (hvnd : (inv.versions.map Prod.fst).Nodup)
    (hsnd : ∀ v ∈ inv.versions, (v.2.state.map Prod.fst).Nodup)
    (hpnd : ∀ v ∈ inv.versions, ∀ e ∈ v.2.state, e.2.Nodup) :
    ((resolveFileRefs inv relpath).count ⟨vn, lp⟩ =
      (match alookup vn inv.versions with
       | some ver =>
         (match alookup (findDigest inv relpath) ver.state with
          | some ps => if lp ∈ ps then 1 else 0
          | none => 0)
       | none => 0)) ∧
    resolveFileRefs invC2 "v1/content/a.txt" =
      [⟨"v1", "a.txt"⟩, ⟨"v1", "a-copy.txt"⟩, ⟨"v2", "a.txt"⟩, ⟨"v3", "a.txt"⟩] ∧
    (resolveFileRefs invC2 "v1/content/a.txt").length = 4 :=
  ⟨count_versions_flatMap (findDigest inv relpath) vn lp inv.versions hvnd hsnd hpnd,
   by decide, by decide⟩

/-- Witness for `C2_resolve_fanout`: on the fixture, the pair
`(v1, a.txt)` is emitted exactly once. -/
theorem C2_witness :
    (resolveFileRefs invC2 "v1/content/a.txt").count ⟨"v1", "a.txt"⟩ = 1 := by
  have h := (C2_resolve_fanout invC2 "v1/content/a.txt" "v1" "a.txt"
    (by decide) (by decide) (by decide)).1
  exact h.trans (by decide)

/-! ## VersionID parsing and increment lemmas -/

theorem parseDigitsAux_digits : ∀ (ds : List Char) (acc : Nat),
    (∀ c ∈ ds, 48 ≤ c.toNat ∧ c.toNat ≤ 57) →
    parseDigitsAux ds acc = some (ds.foldl (fun a c => a * 10 + (c.toNat - 48)) acc)
  | [], _, _ => rfl
  | c :: rest, acc, h => by
    have hc := h c (by simp)
    simp only [parseDigitsAux, digitVal, if_pos hc, List.foldl_cons]
    exact parseDigitsAux_digits rest _ (fun c' hc' => h c' (List.mem_cons_of_mem _ hc'))

theorem goParseNat_digits (ds : List Char) (hne : ds ≠ [])
    (hd : ∀ c ∈ ds, 48 ≤ c.toNat ∧ c.toNat ≤ 57) :
    goParseNat ds = some (digitsValue ds) := by
  match ds, hne with
  | c :: rest, _ =>
    show parseDigitsAux (c :: rest) 0 = some (digitsValue (c :: rest))
    exact parseDigitsAux_digits (c :: rest) 0 hd

theorem trimLeadingV_eq_self (l : List Char) (h : l.head? ≠ some 'v') :
    trimLeadingV l = l := by
  unfold trimLeadingV
  split
  next => exact absurd rfl h
  next => rfl

theorem goParseInt64_digits (ds : List Char) (hne : ds ≠ [])
    (hd : ∀ c ∈ ds, 48 ≤ c.toNat ∧ c.toNat ≤ 57) :
    goParseInt64 ds =
      if digitsValue ds ≤ maxInt64 then some ((digitsValue ds : Nat) : Int) else none := by
  match ds, hne with
  | c :: rest, _ =>
    have hc := hd c (by simp)
    have hplus : c ≠ '+' := by
      intro he; rw [he] at hc
      have h43 : ('+' : Char).toNat = 43 := rfl
      omega
    have hminus : c ≠ '-' := by
      intro he; rw [he] at hc
      have h45 : ('-' : Char).toNat = 45 := rfl
      omega
    simp only [goParseInt64, if_neg hplus, if_neg hminus,
      goParseNat_digits (c :: rest) (by simp) hd]
    rfl

theorem int64Wrap_eq_self (n : Int) (h0 : 0 ≤ n) (h1 : n ≤ (maxInt64 : Int)) :
    int64Wrap n = n := by
  unfold int64Wrap
  unfold maxInt64 at h1
  have h63 : (2 : Int) ^ 63 = 9223372036854775808 := by norm_num
  have h64 : (2 : Int) ^ 64 = 18446744073709551616 := by norm_num
  rw [h63, h64]
  push_cast at h1
  omega

theorem versionInt_vds (ds : List Char) (hne : ds ≠ [])
    (hd : ∀ c ∈ ds, 48 ≤ c.toNat ∧ c.toNat ≤ 57) :
    VersionID.Int (String.mk ('v' :: ds)) =
      if digitsValue ds ≤ maxInt64 then some ((digitsValue ds : Nat) : Int) else none := by
  show goParseInt64 (trimLeadingV ('v' :: ds)) = _
  have h1 : trimLeadingV ('v' :: ds) = trimLeadingV ds := rfl
  have h2 : trimLeadingV ds = ds := by
    apply trimLeadingV_eq_self
    match ds, hne with
    | c :: rest, _ =>
      have hc := hd c (by simp)
      intro h
      injection h with h
      rw [h] at hc
      have h118 : ('v' : Char).toNat = 118 := rfl
      omega
  rw [h1, h2]
  exact goParseInt64_digits ds hne hd

theorem versionValid_vds (ds : List Char) (hne : ds ≠ [])
    (hd : ∀ c ∈ ds, 48 ≤ c.toNat ∧ c.toNat ≤ 57)
    (hpos : 0 < digitsValue ds) (hrange : digitsValue ds ≤ maxInt64) :
    VersionID.Valid (String.mk ('v' :: ds)) = true := by
  unfold VersionID.Valid
  rw [versionInt_vds ds hne hd, if_pos hrange]
  have hdsl : 0 < ds.length := List.length_pos.mpr hne
  have hlen : ¬ (String.mk ('v' :: ds)).data.length < 2 := by
    show ¬ ('v' :: ds).length < 2
    simp only [List.length_cons]
    omega
  have hhead : (String.mk ('v' :: ds)).data.head? = some 'v' := rfl
  simp only [hhead, if_neg, decide_eq_true_eq]
  simp [hlen, hpos]
  omega

theorem versionIncrement_vds (ds : List Char) (hne : ds ≠ [])
    (hd : ∀ c ∈ ds, 48 ≤ c.toNat ∧ c.toNat ≤ 57)
    (hpos : 0 < digitsValue ds) (hfit : digitsValue ds + 1 ≤ maxInt64) :
    VersionID.Increment (String.mk ('v' :: ds)) =
      .ok (if ds.head? = some '0'
           then "v" ++ goPadded ds.length ((digitsValue ds + 1 : Nat) : Int)
           else "v" ++ intRepr ((digitsValue ds + 1 : Nat) : Int)) := by
  unfold VersionID.Increment
  rw [versionValid_vds ds hne hd hpos (by omega)]
  simp only [Bool.not_true, Bool.false_eq_true, if_false]
  rw [versionInt_vds ds hne hd, if_pos (by omega : digitsValue ds ≤ maxInt64)]
  have hwrap : int64Wrap (((digitsValue ds : Nat) : Int) + 1) = ((digitsValue ds + 1 : Nat) : Int) := by
    rw [int64Wrap_eq_self]
    · push_cast; ring
    · positivity
    · unfold maxInt64 at *
      push_cast
      omega
  have hget : (String.mk ('v' :: ds)).data.get? 1 = ds.head? := by
    cases ds
    · rfl
    · rfl
  have hlen : (String.mk ('v' :: ds)).data.length - 1 = ds.length := by
    show ('v' :: ds).length - 1 = ds.length
    simp
  rw [hget, hlen]
  simp only [Option.getD_some, hwrap]
  cases hh : ds.head? with
  | none => simp [hh]
  | some c =>
    by_cases hc : c = '0'
    · subst hc; simp
    · have hne2 : (some c) ≠ some '0' := by simpa using hc
      split
      next heq => exact absurd heq hne2
      next => rw [if_neg (by simpa using hc)]

/-! ## Claim C5 -/

/-- Claim C5 (corrected): `Increment("v9") = "v10"`, `Increment("v009") =
"v010"`, and `Increment("v0")` and `Increment("abc")` fail; for every
version name `v` followed by a positive digit string whose successor
still fits in a signed 64-bit integer, `Increment` returns the next
integer's name, preserving the zero-padding width (the full digit width
of the input) exactly when the first digit is `'0'`.  The bound is needed:
see `C5_counterexample`. -/
theorem C5_increment_amended (ds : List Char) (hne : ds ≠ [])
    (hd : ∀ c ∈ ds, 48 ≤ c.toNat ∧ c.toNat ≤ 57)
    (hpos : 0 < digitsValue ds) (hfit : digitsValue ds + 1 ≤ maxInt64) :
    VersionID.Increment "v9" = .ok "v10" ∧
    VersionID.Increment "v009" = .ok "v010" ∧
    (VersionID.Increment "v0").isOk = false ∧
    (VersionID.Increment "abc").isOk = false ∧
    VersionID.Increment (String.mk ('v' :: ds)) =
      .ok (if ds.head? = some '0'
           then "v" ++ goPadded ds.length ((digitsValue ds + 1 : Nat) : Int)
           else "v" ++ intRepr ((digitsValue ds + 1 : Nat) : Int)) :=
  ⟨rfl, rfl, rfl, rfl, versionIncrement_vds ds hne hd hpos hfit⟩

/-- Claim C5, counterexample to the unrestricted claim: the version name
`v9223372036854775808` is `v` followed by a positive integer (2^63), yet
`Increment` fails (`strconv.ParseInt`'s 64-bit range check rejects the
value, so `Valid` is false); and at `v9223372036854775807` (2^63 - 1,
the largest parseable value) the int64 successor wraps around, so the
code returns `v-9223372036854775808` instead of the next integer's name. -/
theorem C5_counterexample :
    "v9223372036854775808" = String.mk ('v' :: c5digits) ∧
    c5digits ≠ [] ∧
    (∀ c ∈ c5digits, 48 ≤ c.toNat ∧ c.toNat ≤ 57) ∧
    0 < digitsValue c5digits ∧
    (VersionID.Increment "v9223372036854775808").isOk = false ∧
    VersionID.Increment "v9223372036854775807" = .ok "v-9223372036854775808" :=
  ⟨rfl, by decide, by decide, by decide, rfl, rfl⟩

/-- Witness for `C5_increment_amended` at the concrete input `v7`. -/
theorem C5_witness : VersionID.Increment "v7" = .ok "v8" := by
  have h := (C5_increment_amended ['7'] (by decide) (by decide) (by decide) (by decide)).2.2.2.2
  exact h.trans (by rfl)

/-! ## Claim C10 -/

/-- Claim C10 (confirmed): `VersionID` parsing strips every leading `v`:
`Valid("vv5")` is true, `Int("vv5")` is 5, and `Increment("vv5")` returns
`v6` without error, although `vv5` is not `v` followed by digits. -/
theorem C10_trimleft_lenient :
    VersionID.Valid "vv5" = true ∧
    VersionID.Int "vv5" = some 5 ∧
    VersionID.Increment "vv5" = .ok "v6" ∧
    (∀ ds : List Char, (∀ c ∈ ds, 48 ≤ c.toNat ∧ c.toNat ≤ 57) →
      "vv5" ≠ String.mk ('v' :: ds)) := by
  refine ⟨rfl, rfl, rfl, ?_⟩
  intro ds hd h
  have hdata : ('v' :: 'v' :: '5' :: []) = 'v' :: ds := congrArg String.data h
  have hds : ds = ['v', '5'] := by
    injection hdata with _ h2
    exact h2.symm
  subst hds
  have hv := hd 'v' (by simp)
  have h118 : ('v' : Char).toNat = 118 := rfl
  omega

/-- Witness for `C10_trimleft_lenient`, instantiating its universally
quantified conjunct at `ds = ['5']`. -/
theorem C10_witness : "vv5" ≠ String.mk ('v' :: ['5']) :=
  C10_trimleft_lenient.2.2.2 ['5'] (by decide)

/-! ## Claims C3 and C9: AddFile lemmas -/

theorem putHeadState_fields (i : Inventory) (d : Digest) (p : String) :
    (Inventory.putHeadState i d p).stateIndex = i.stateIndex ∧
    (Inventory.putHeadState i d p).manifestIndex = i.manifestIndex ∧
    (Inventory.putHeadState i d p).manifest = i.manifest ∧
    (Inventory.putHeadState i d p).head = i.head := by
  unfold Inventory.putHeadState
  cases alookup i.head i.versions <;> exact ⟨rfl, rfl, rfl, rfl⟩

theorem indexHead_fields (i : Inventory) :
    (i.indexHead).1.manifest = i.manifest ∧ (i.indexHead).1.versions = i.versions ∧
    (i.indexHead).1.head = i.head := by
  unfold Inventory.indexHead indexHeadManifest
  repeat' split
  all_goals exact ⟨rfl, rfl, rfl⟩


theorem alookup_getD_some {o : Option (List (String × Digest))} {p : String} {d : Digest}
    (h : alookup p (o.getD []) = some d) : ∃ s, o = some s ∧ alookup p s = some d := by
  cases o with
  | none => simp [alookup] at h
  | some s => exact ⟨s, rfl, h⟩

theorem indexHead_some (i : Inventory) (hs : i.stateIndex.isSome = true)
    (hm : i.manifestIndex.isSome = true) : i.indexHead = (i, none) := by
  unfold Inventory.indexHead indexHeadManifest
  cases hss : i.stateIndex with
  | none => rw [hss] at hs; simp at hs
  | some s =>
    cases hmm : i.manifestIndex with
    | none => rw [hmm] at hm; simp at hm
    | some m => rfl

theorem addFileMutate_tt (i : Inventory) (p q : String) (d : Digest) :
    addFileMutate i p q d true true = (i, none) := rfl

theorem addFileMutate_tf_parts (i : Inventory) (p q : String) (d : Digest) :
    (addFileMutate i p q d true false).2 = none ∧
    (addFileMutate i p q d true false).1.stateIndex = i.stateIndex ∧
    (addFileMutate i p q d true false).1.manifestIndex =
      some (ainsert q d (i.manifestIndex.getD [])) :=
  ⟨rfl, rfl, rfl⟩

theorem addFileMutate_ft_parts (i : Inventory) (p q : String) (d : Digest) :
    (addFileMutate i p q d false true).2 = none ∧
    (addFileMutate i p q d false true).1.stateIndex =
      ((withStateInsert i p d).putHeadState d p).stateIndex ∧
    (addFileMutate i p q d false true).1.manifestIndex =
      ((withStateInsert i p d).putHeadState d p).manifestIndex :=
  ⟨rfl, rfl, rfl⟩

theorem addFileMutate_ff_parts (i : Inventory) (p q : String) (d : Digest) :
    (addFileMutate i p q d false false).2 = none ∧
    (addFileMutate i p q d false false).1.stateIndex =
      ((withStateInsert i p d).putHeadState d p).stateIndex ∧
    (addFileMutate i p q d false false).1.manifestIndex =
      some (ainsert q d (((withStateInsert i p d).putHeadState d p).manifestIndex.getD [])) :=
  ⟨rfl, rfl, rfl⟩

theorem addFile_success_indexes (i i₁ : Inventory) (p q : String) (d : Digest)
    (h : Inventory.AddFile i p q d = (i₁, none)) :
    ∃ sIdx mIdx, i₁.stateIndex = some sIdx ∧ alookup p sIdx = some d ∧
      i₁.manifestIndex = some mIdx ∧ alookup q mIdx = some d := by
  unfold Inventory.AddFile at h
  split at h
  next i1 e heq => simp at h
  next i1 heq =>
    split at h
    next d0 heq1 =>
      split at h
      next hne => simp at h
      next hne =>
        have hd0 : d = d0 := (not_not.mp hne).symm
        subst hd0
        obtain ⟨s, hss, hsp⟩ := alookup_getD_some heq1
        split at h
        next d1 heq2 =>
          split at h
          next hne2 => simp at h
          next hne2 =>
            have hd1 : d = d1 := (not_not.mp hne2).symm
            subst hd1
            obtain ⟨m, hmm, hmq⟩ := alookup_getD_some heq2
            rw [addFileMutate_tt, Prod.mk.injEq] at h
            rw [← h.1]
            exact ⟨s, m, hss, hsp, hmm, hmq⟩
        next heq2 =>
          have h1 : (addFileMutate i1 p q d true false).1 = i₁ := by rw [h]
          refine ⟨s, ainsert q d (i1.manifestIndex.getD []), ?_, hsp, ?_, alookup_ainsert_self q d _⟩
          · rw [← h1, (addFileMutate_tf_parts i1 p q d).2.1]
            exact hss
          · rw [← h1, (addFileMutate_tf_parts i1 p q d).2.2]
    next heq1 =>
      have hfields := putHeadState_fields (withStateInsert i1 p d) d p
      split at h
      next d1 heq2 =>
        split at h
        next hne2 => simp at h
        next hne2 =>
          have hd1 : d = d1 := (not_not.mp hne2).symm
          subst hd1
          obtain ⟨m, hmm, hmq⟩ := alookup_getD_some heq2
          have h1 : (addFileMutate i1 p q d false true).1 = i₁ := by rw [h]
          refine ⟨ainsert p d (i1.stateIndex.getD []), m, ?_,
            alookup_ainsert_self p d _, ?_, hmq⟩
          · rw [← h1, (addFileMutate_ft_parts i1 p q d).2.1, hfields.1]
            rfl
          · rw [← h1, (addFileMutate_ft_parts i1 p q d).2.2, hfields.2.1]
            exact hmm
      next heq2 =>
        have h1 : (addFileMutate i1 p q d false false).1 = i₁ := by rw [h]
        refine ⟨ainsert p d (i1.stateIndex.getD []),
          ainsert q d (((withStateInsert i1 p d).putHeadState d p).manifestIndex.getD []), ?_,
          alookup_ainsert_self p d _, ?_, alookup_ainsert_self q d _⟩
        · rw [← h1, (addFileMutate_ff_parts i1 p q d).2.1, hfields.1]
          rfl
        · rw [← h1, (addFileMutate_ff_parts i1 p q d).2.2]


theorem addFile_repeat (i : Inventory) (p q : String) (d : Digest)
    (sIdx mIdx : List (String × Digest))
    (hs : i.stateIndex = some sIdx) (hsp : alookup p sIdx = some d)
    (hm : i.manifestIndex = some mIdx) (hmq : alookup q mIdx = some d) :
    Inventory.AddFile i p q d = (i, none) := by
  unfold Inventory.AddFile
  rw [indexHead_some i (by rw [hs]; rfl) (by rw [hm]; rfl)]
  simp only [hs, hm, Option.getD_some, hsp, hmq]
  rw [if_neg (by simp : ¬ d ≠ d)]
  rw [if_neg (by simp : ¬ d ≠ d)]
  exact addFileMutate_tt i p q d

theorem addFile_conflict_state (i : Inventory) (p q' : String) (d d' : Digest)
    (sIdx : List (String × Digest))
    (hs : i.stateIndex = some sIdx) (hsp : alookup p sIdx = some d)
    (hm : i.manifestIndex.isSome = true) (hne : d' ≠ d) :
    Inventory.AddFile i p q' d' = (i, some (.stateConflict p)) := by
  unfold Inventory.AddFile
  rw [indexHead_some i (by rw [hs]; rfl) hm]
  simp only [hs, Option.getD_some, hsp]
  rw [if_pos (fun hq : d = d' => hne hq.symm)]

theorem addFile_conflict_physical (i : Inventory) (p' q : String) (d d' : Digest)
    (sIdx mIdx : List (String × Digest))
    (hs : i.stateIndex = some sIdx) (hm : i.manifestIndex = some mIdx)
    (hmq : alookup q mIdx = some d) (hne : d' ≠ d) :
    ∃ e, (Inventory.AddFile i p' q d').2 = some e ∧ e.isConflict = true := by
  unfold Inventory.AddFile
  rw [indexHead_some i (by rw [hs]; rfl) (by rw [hm]; rfl)]
  simp only [hs, hm, Option.getD_some, hmq]
  cases hsp : alookup p' sIdx with
  | some d0 =>
    by_cases hd0 : d0 ≠ d'
    · refine ⟨.stateConflict p', ?_, rfl⟩
      show (if d0 ≠ d' then (i, some (AddErr.stateConflict p'))
            else if d ≠ d' then (i, some (AddErr.manifestConflict q))
            else addFileMutate i p' q d' true true).2 = some (AddErr.stateConflict p')
      rw [if_pos hd0]
    · refine ⟨.manifestConflict q, ?_, rfl⟩
      show (if d0 ≠ d' then (i, some (AddErr.stateConflict p'))
            else if d ≠ d' then (i, some (AddErr.manifestConflict q))
            else addFileMutate i p' q d' true true).2 = some (AddErr.manifestConflict q)
      rw [if_neg hd0, if_pos (fun hq : d = d' => hne hq.symm)]
  | none =>
    refine ⟨.manifestConflict q, ?_, rfl⟩
    show (if d ≠ d' then (i, some (AddErr.manifestConflict q))
          else addFileMutate i p' q d' false true).2 = some (AddErr.manifestConflict q)
    rw [if_pos (fun hq : d = d' => hne hq.symm)]


theorem headState_congr (a b : Inventory) (hh : a.head = b.head) (hv : a.versions = b.versions) :
    Inventory.headState a = Inventory.headState b := by
  unfold Inventory.headState
  rw [hh, hv]

theorem indexHead1_fields (i i' : Inventory) (hi : i' = (i.indexHead).1) :
    i'.manifest = i.manifest ∧ i'.versions = i.versions ∧
    Inventory.headState i' = Inventory.headState i := by
  have hfields := indexHead_fields i
  subst hi
  exact ⟨hfields.1, hfields.2.1,
    headState_congr _ _ hfields.2.2 hfields.2.1⟩

/-- Claim C9 (confirmed): whenever `AddFile` returns an error (in
particular a `Conflict`), the manifest, the versions map, and hence the
head version's state are exactly as before the call: both conflict
checks run before any mutation, and the only fields the call may have
touched are the transient lazy indexes. -/
theorem C9_addfile_conflict_unchanged (i i' : Inventory) (p q : String) (d : Digest) (e : AddErr)
    (h : Inventory.AddFile i p q d = (i', some e)) :
    i'.manifest = i.manifest ∧ i'.versions = i.versions ∧
    Inventory.headState i' = Inventory.headState i := by
  unfold Inventory.AddFile at h
  split at h
  next i1 e0 heq =>
    rw [Prod.mk.injEq] at h
    exact indexHead1_fields i i' (by rw [← h.1, heq])
  next i1 heq =>
    have hi1 : i1 = (i.indexHead).1 := by rw [heq]
    split at h
    next d0 heq1 =>
      split at h
      next hne =>
        rw [Prod.mk.injEq] at h
        exact indexHead1_fields i i' (by rw [← h.1, hi1])
      next hne =>
        split at h
        next d1 heq2 =>
          split at h
          next hne2 =>
            rw [Prod.mk.injEq] at h
            exact indexHead1_fields i i' (by rw [← h.1, hi1])
          next hne2 =>
            rw [addFileMutate_tt, Prod.mk.injEq] at h
            exact absurd h.2 (by simp)
        next heq2 =>
          have hq := (addFileMutate_tf_parts i1 p q d).1
          rw [h] at hq
          exact absurd hq (by simp)
    next heq1 =>
      split at h
      next d1 heq2 =>
        split at h
        next hne2 =>
          rw [Prod.mk.injEq] at h
          exact indexHead1_fields i i' (by rw [← h.1, hi1])
        next hne2 =>
          have hq := (addFileMutate_ft_parts i1 p q d).1
          rw [h] at hq
          exact absurd hq (by simp)
      next heq2 =>
        have hq := (addFileMutate_ff_parts i1 p q d).1
        rw [h] at hq
        exact absurd hq (by simp)

/-- Claim C3 (confirmed): after a successful `AddFile(p, q, d)`,
(i) repeating the identical call succeeds and returns the inventory
exactly unchanged — so the head version's state and the manifest gain no
duplicate entries; (ii) any `AddFile(p, q', d')` with `d' ≠ d` fails
with the logical-path `Conflict` error; (iii) any `AddFile(p', q, d')`
with `d' ≠ d` — the physical path `q` already mapping to `d` in the
manifest — fails with a `Conflict` error. -/
theorem C3_addfile_idempotent_conflicts (i i₁ : Inventory) (p q : String) (d : Digest)
    (h : Inventory.AddFile i p q d = (i₁, none)) :
    Inventory.AddFile i₁ p q d = (i₁, none) ∧
    (∀ q' d', d' ≠ d → Inventory.AddFile i₁ p q' d' = (i₁, some (.stateConflict p))) ∧
    (∀ p' d', d' ≠ d → ∃ e, (Inventory.AddFile i₁ p' q d').2 = some e ∧ e.isConflict = true) := by
  obtain ⟨sIdx, mIdx, hs, hsp, hm, hmq⟩ := addFile_success_indexes i i₁ p q d h
  refine ⟨addFile_repeat i₁ p q d sIdx mIdx hs hsp hm hmq, ?_, ?_⟩
  · intro q' d' hne
    exact addFile_conflict_state i₁ p q' d d' sIdx hs hsp (by rw [hm]; rfl) hne
  · intro p' d' hne
    exact addFile_conflict_physical i₁ p' q d d' sIdx mIdx hs hm hmq hne


/-- Witness for `C3_addfile_idempotent_conflicts`: a concrete first call
on the empty-object fixture, then the identical second call. -/
theorem C3_witness :
    Inventory.AddFile (Inventory.AddFile invEmptyV1 "a.txt" "v1/content/a.txt" "d1").1
      "a.txt" "v1/content/a.txt" "d1" =
    ((Inventory.AddFile invEmptyV1 "a.txt" "v1/content/a.txt" "d1").1, none) :=
  (C3_addfile_idempotent_conflicts invEmptyV1 _ "a.txt" "v1/content/a.txt" "d1" (by rfl)).1

/-- Witness for `C9_addfile_conflict_unchanged`: a conflicting second
call with a different digest leaves the manifest untouched. -/
theorem C9_witness :
    (Inventory.AddFile (Inventory.AddFile invEmptyV1 "a.txt" "v1/content/a.txt" "d1").1
      "a.txt" "v1/content/a.txt" "d2").1.manifest =
    ((Inventory.AddFile invEmptyV1 "a.txt" "v1/content/a.txt" "d1").1).manifest :=
  (C9_addfile_conflict_unchanged (Inventory.AddFile invEmptyV1 "a.txt" "v1/content/a.txt" "d1").1
    _ "a.txt" "v1/content/a.txt" "d2" (AddErr.stateConflict "a.txt") (by rfl)).1



/-! ## Claim C8 -/

/-- Claim C8 (confirmed): opening an existing object with the
new-version sentinel increments `Head` and seeds the new version's state
with exactly the previous head's state: `nextVersion` succeeds whenever
the incremented name is valid, the new `Head` is that name, and the new
head version's state agrees with the previous head's state on every
digest. -/
theorem C8_next_version_copies_state (inv : Inventory) (next : String) (prevVer : GoVersion)
    (hinc : VersionID.Increment inv.head = .ok next)
    (hval : VersionID.Valid next = true)
    (hprev : alookup inv.head inv.versions = some prevVer) :
    ∃ inv', Inventory.nextVersion inv = .ok inv' ∧ inv'.head = next ∧
      ∃ nv, alookup next inv'.versions = some nv ∧
        ∀ dg, alookup dg nv.state = alookup dg prevVer.state := by
  unfold Inventory.nextVersion setupVersionInv
  rw [hinc]
  simp only [hval, Bool.not_true, Bool.false_eq_true, if_false, hprev]
  refine ⟨_, rfl, rfl, _, alookup_ainsert_self _ _ _, fun dg => rfl⟩

/-- Witness for `C8_next_version_copies_state` on the empty-object
fixture: `v1` becomes `v2` and the (empty) state carries over. -/
theorem C8_witness :
    ∃ inv', Inventory.nextVersion invEmptyV1 = .ok inv' ∧ inv'.head = "v2" ∧
      ∃ nv, alookup "v2" inv'.versions = some nv ∧
        ∀ dg, alookup dg nv.state = alookup dg (mkVer []).state :=
  C8_next_version_copies_state invEmptyV1 "v2" (mkVer []) (by rfl) (by rfl) (by rfl)

/-! ## Claim C7 -/

/-- Claim C7 (corrected): for the desired types `Root` and `Object`,
`isRoot` distinguishes marker absence (false, no error) from other probe
failures (an error is returned); but for the wildcard type `Any` the
claim fails — an error probing the root marker is discarded when the
subsequent object probe completes cleanly (see `C7_counterexample`). -/
theorem C7_isroot_amended (stat : String → StatRes) (path marker : String) (t : EType)
    (hmark : (t = EType.Root ∧ marker = ocflRootMarker) ∨
             (t = EType.Object ∧ marker = ocflObjectMarker))
    (reg : Bool) (hdir : stat path = .ok true reg) :
    (stat (path ++ "/" ++ marker) = .errNotExist → isRoot stat path t = (false, t, none)) ∧
    (∀ c, stat (path ++ "/" ++ marker) = .errOther c →
      ∃ e, isRoot stat path t = (false, t, some e)) := by
  have hbody : ∀ m, isRootProbe stat path t m =
      (match stat path with
       | .errNotExist => (false, t, some .statNotExist)
       | .errOther c => (false, t, some (.statErr c))
       | .ok isDir _ =>
         if !isDir then (false, t, none)
         else
           match stat (path ++ "/" ++ m) with
           | .errOther c => (false, t, some (.wrapped "error detecting namaste file" (.statErr c)))
           | .errNotExist => (false, t, none)
           | .ok _ isReg => (isReg, t, none)) := fun m => rfl
  rcases hmark with ⟨ht, hmk⟩ | ⟨ht, hmk⟩ <;> subst ht <;> subst hmk <;>
    constructor
  · intro habs
    show isRootProbe stat path .Root ocflRootMarker = _
    rw [hbody, hdir, habs]
    rfl
  · intro c habs
    refine ⟨.wrapped "error detecting namaste file" (.statErr c), ?_⟩
    show isRootProbe stat path .Root ocflRootMarker = _
    rw [hbody, hdir, habs]
    rfl
  · intro habs
    show isRootProbe stat path .Object ocflObjectMarker = _
    rw [hbody, hdir, habs]
    rfl
  · intro c habs
    refine ⟨.wrapped "error detecting namaste file" (.statErr c), ?_⟩
    show isRootProbe stat path .Object ocflObjectMarker = _
    rw [hbody, hdir, habs]
    rfl

/-- Claim C7, counterexample to the claim as stated: with the wildcard
type `Any`, the directory exists, the root-marker probe fails with a
permission error (not non-existence), and yet `isRoot` returns false
with no error, because the `Any` case discards the root probe's error
and the object probe finds its marker absent. -/
theorem C7_counterexample :
    statC7 "/d" = .ok true false ∧
    statC7 ("/d" ++ "/" ++ ocflRootMarker) = .errOther 13 ∧
    isRoot statC7 "/d" EType.Any = (false, EType.Object, none) :=
  ⟨rfl, rfl, rfl⟩

/-- Witness for `C7_isroot_amended`: a concrete Root-typed probe on the
`statC7` fixture fails with the wrapped permission error. -/
theorem C7_witness :
    ∃ e, isRoot statC7 "/d" EType.Root = (false, EType.Root, some e) :=
  (C7_isroot_amended statC7 "/d" ocflRootMarker EType.Root (Or.inl ⟨rfl, rfl⟩)
    false (by rfl)).2 13 (by rfl)


/-! ## Claim C4: serialization round-trip -/

theorem parseStrList_roundtrip (ps : List String) :
    parseStrList (ps.map Json.str) = some ps := by
  induction ps with
  | nil => rfl
  | cons p rest ih => simp [parseStrList, ih]

theorem parsePaths_roundtrip (ps : List String) :
    parsePaths (serializePaths ps) = some ps := by
  show parseStrList (ps.map Json.str) = some ps
  exact parseStrList_roundtrip ps

theorem parseManifest_roundtrip (m : Manifest) :
    parseManifest (serializeManifest m) = some m := by
  show parseManifestFields (m.map fun e => (e.1, serializePaths e.2)) = some m
  induction m with
  | nil => rfl
  | cons e rest ih =>
    obtain ⟨k, ps⟩ := e
    simp [parseManifestFields, parsePaths_roundtrip, ih]

theorem parseVersion_roundtrip (v : GoVersion) :
    parseVersion (serializeVersion v) = some v := by
  unfold parseVersion serializeVersion
  simp [alookup, parseManifest_roundtrip]

theorem parseVersionsFields_roundtrip (vs : List (String × GoVersion)) :
    parseVersionsFields (vs.map fun e => (e.1, serializeVersion e.2)) = some vs := by
  induction vs with
  | nil => rfl
  | cons e rest ih =>
    obtain ⟨k, v⟩ := e
    simp [parseVersionsFields, parseVersion_roundtrip, ih]

theorem parseFixityFields_roundtrip (fx : List (String × Manifest)) :
    parseFixityFields (fx.map fun e => (e.1, serializeManifest e.2)) = some fx := by
  induction fx with
  | nil => rfl
  | cons e rest ih =>
    obtain ⟨k, m⟩ := e
    simp [parseFixityFields, parseManifest_roundtrip, ih]

/-- Claim C4 (confirmed): `Parse(Serialize(inv))` recovers every
serialized field — id, type, digestAlgorithm, head, manifest, versions
(created/message/user/state) and fixity — for every inventory, Unicode
strings, multiple physical paths per digest and multiple fixity
algorithms included; the unexported transient indexes are not
serialized and come back nil, as on any freshly decoded Go struct. -/
theorem C4_parse_serialize_roundtrip (inv : Inventory) :
    (parseInventory (serializeInventory inv) =
      some { inv with stateIndex := none, manifestIndex := none }) ∧
    parseInventory (serializeInventory invC4) = some invC4 := by
  have hgen : ∀ j : Inventory, parseInventory (serializeInventory j) =
      some { j with stateIndex := none, manifestIndex := none } := by
    intro j
    unfold parseInventory serializeInventory
    simp [alookup, parseManifest_roundtrip, parseVersionsFields_roundtrip,
      parseFixityFields_roundtrip]
  exact ⟨hgen inv, (hgen invC4).trans rfl⟩


/-! ## Claim C6: walk-abort invariant -/

theorem goodW_nil {ε : Type} (cb : ERef → Except ε Unit) : GoodW cb ([], none) := by
  intro r hr
  simp at hr

theorem goodW_structural {ε : Type} (cb : ERef → Except ε Unit) (w : WalkErr ε)
    (hw : cbCause w = none) : GoodW cb ([], some w) := by
  exact Or.inr ⟨fun r hr => by simp at hr, hw⟩

theorem goodW_emit {ε : Type} (cb : ERef → Except ε Unit) (r : ERef) :
    GoodW cb (emitW cb r) := by
  unfold emitW
  cases hc : cb r with
  | ok u => exact fun x hx => by rcases List.mem_singleton.mp hx with rfl; cases u; exact hc
  | error e =>
    exact Or.inl ⟨e, [], r, rfl, hc, fun x hx => by simp at hx, rfl⟩

theorem goodW_seq {ε : Type} (cb : ERef → Except ε Unit) (a : WalkM ε) (b : Unit → WalkM ε)
    (ha : GoodW cb a) (hb : GoodW cb (b ())) : GoodW cb (seqW a b) := by
  obtain ⟨la, ea⟩ := a
  cases ea with
  | some e => exact ha
  | none =>
    show GoodW cb (la ++ (b ()).1, (b ()).2)
    cases heb : (b ()).2 with
    | none =>
      intro r hr
      rcases List.mem_append.mp hr with h | h
      · exact ha r h
      · have := hb
        unfold GoodW at this
        rw [heb] at this
        exact this r h
    | some w =>
      have hgb := hb
      unfold GoodW at hgb
      rw [heb] at hgb
      rcases hgb with ⟨e, pre, last, hsplit, hlast, hpre, hcause⟩ | ⟨hall, hcause⟩
      · refine Or.inl ⟨e, la ++ pre, last, ?_, hlast, ?_, hcause⟩
        · rw [hsplit, List.append_assoc]
        · intro x hx
          rcases List.mem_append.mp hx with h | h
          · exact ha x h
          · exact hpre x h
      · refine Or.inr ⟨?_, hcause⟩
        intro r hr
        rcases List.mem_append.mp hr with h | h
        · exact ha r h
        · exact hall r h


theorem goodW_wrap {ε : Type} (cb : ERef → Except ε Unit) (log : List ERef)
    (w : WalkErr ε) (msg : String) (h : GoodW cb (log, some w)) :
    GoodW cb (log, some (.wrapped msg w)) := by
  unfold GoodW at h ⊢
  simpa [cbCause] using h

theorem goodW_if_emit {ε : Type} (cb : ERef → Except ε Unit) (c : Bool) (r : ERef) :
    GoodW cb (if c then emitW cb r else ([], none)) := by
  cases c with
  | true => simpa using goodW_emit cb r
  | false => simpa using goodW_nil cb

theorem goodW_filesLoop {ε : Type} (s : Scope) (cb : ERef → Except ε Unit)
    (objAddr : String) (version : ERef) (files : List GoFile) :
    GoodW cb (filesLoop s cb objAddr version files) := by
  induction files with
  | nil => exact goodW_nil cb
  | cons f rest ih =>
    unfold filesLoop
    cases hc : !(scontains s (⟨f.logicalPath, objAddr ++ "/" ++ f.physicalPath, .File⟩ :: version)) with
    | true => simpa [hc] using ih
    | false =>
      simp only [hc, Bool.false_eq_true, if_false]
      exact goodW_seq cb _ _ (goodW_emit cb _) ih

theorem goodW_walkVersionsLoop {ε : Type} (s : Scope) (cb : ERef → Except ε Unit)
    (inv : Inventory) (object : ERef) (vs : List (String × GoVersion)) :
    GoodW cb (walkVersionsLoop s cb inv object vs) := by
  induction vs with
  | nil => exact goodW_nil cb
  | cons v rest ih =>
    obtain ⟨vID, ver⟩ := v
    unfold walkVersionsLoop
    cases hh : s.desired.head && vID != inv.head with
    | true => simpa [hh] using ih
    | false =>
      simp only [hh, Bool.false_eq_true, if_false]
      refine goodW_seq cb _ _ (goodW_if_emit cb _ _) ?_
      refine goodW_seq cb _ _ ?_ ih
      by_cases hd : s.desired.type.val ≤ EType.File.val
      · simpa [hd] using goodW_filesLoop s cb (chainAddr object) _ _
      · simpa [hd] using goodW_nil cb

theorem goodW_walkObject {ε : Type} (s : Scope) (cb : ERef → Except ε Unit)
    (path : String) (inv? : Option Inventory) :
    GoodW cb (walkObject s cb path inv?) := by
  cases inv? with
  | none => exact goodW_structural cb _ rfl
  | some inv =>
    unfold walkObject
    refine goodW_seq cb _ _ (goodW_if_emit cb _ _) ?_
    by_cases hd : s.desired.type.val ≤ EType.Version.val
    · simpa [hd] using goodW_walkVersionsLoop s cb inv _ inv.versions
    · simpa [hd] using goodW_nil cb

theorem goodW_scopeCb {ε : Type} (s : Scope) (cb : ERef → Except ε Unit)
    (ospath : String) (t : FsTree) :
    GoodW cb (scopeCb s cb ospath t).2 := by
  cases t with
  | file n => exact goodW_nil cb
  | dir n inv? entries =>
    unfold scopeCb
    cases hm : hasObjMarker entries with
    | true => simpa [hm] using goodW_walkObject s cb ospath inv?
    | false =>
      simp only [hm, Bool.false_eq_true, if_false]
      by_cases hcond : ospath ≠ chainAddr s.root ∧
          scontains s [⟨"", "", EType.Intermediate⟩] = true
      · rw [if_pos hcond]
        cases hc : cb (⟨relPath (chainAddr s.root) ospath, ospath, .Intermediate⟩ :: s.root) with
        | error e =>
          refine Or.inl ⟨e, [], _, rfl, hc, fun x hx => by simp at hx, rfl⟩
        | ok u =>
          intro r hr
          rcases List.mem_singleton.mp hr with rfl
          cases u
          exact hc
      · rw [if_neg hcond]
        exact goodW_nil cb


theorem goodW_if_emit2 {ε : Type} (cb : ERef → Except ε Unit) (c : Prop) [Decidable c]
    (r : ERef) : GoodW cb (if c then emitW cb r else ([], none)) := by
  by_cases hc : c
  · simpa [hc] using goodW_emit cb r
  · simpa [hc] using goodW_nil cb

theorem goodW_prepend_ok {ε : Type} (cb : ERef → Except ε Unit) (log : List ERef)
    (hlog : ∀ x ∈ log, cb x = .ok ()) (m : WalkM ε) (hm : GoodW cb m) :
    GoodW cb (log ++ m.1, m.2) :=
  goodW_seq cb (log, none) (fun _ => m) hlog hm

theorem goodW_fsWalk_both {ε : Type} (cb : ERef → Except ε Unit)
    (cbf : String → FsTree → Bool × WalkM ε)
    (hcbf : ∀ a t, GoodW cb (cbf a t).2) :
    ∀ fuel : Nat, (∀ addr t, GoodW cb (fsWalkF cbf fuel addr t)) ∧
      (∀ pfx l, GoodW cb (fsWalkChildren cbf fuel pfx l)) := by
  intro fuel
  induction fuel with
  | zero =>
    refine ⟨fun _ _ => goodW_nil cb, fun _ _ => goodW_nil cb⟩
  | succ n ih =>
    refine ⟨?_, ?_⟩
    · intro addr t
      unfold fsWalkF
      cases hc : cbf addr t with
      | mk terminal r =>
        obtain ⟨log, e?⟩ := r
        have hg := hcbf addr t
        rw [hc] at hg
        cases e? with
        | some e => exact goodW_wrap cb log e _ hg
        | none =>
          cases terminal with
          | true => simpa using hg
          | false =>
            cases t with
            | file nm => simpa using hg
            | dir nm inv? entries =>
              simp only [Bool.false_eq_true, if_false]
              exact goodW_prepend_ok cb log hg _ (ih.2 (addr ++ "/") entries)
    · intro pfx l
      cases l with
      | nil => exact goodW_nil cb
      | cons c rest =>
        unfold fsWalkChildren
        have hg := ih.1 (pfx ++ c.name) c
        cases hr : fsWalkF cbf n (pfx ++ c.name) c with
        | mk rl re =>
          rw [hr] at hg
          cases re with
          | some e => exact hg
          | none => exact goodW_prepend_ok cb rl hg _ (ih.2 pfx rest)


theorem goodW_scopeWalkFs {ε : Type} (fuel : Nat) (s : Scope) (tree : FsTree)
    (cb : ERef → Except ε Unit) (node : ERef) (log : List ERef)
    (hlog : ∀ x ∈ log, cb x = .ok ()) :
    GoodW cb (scopeWalkFs fuel s tree cb node log) := by
  unfold scopeWalkFs
  have hgr := (goodW_fsWalk_both cb (scopeCb s cb) (fun a t => goodW_scopeCb s cb a t)
    fuel).1 (if chainAddr node = "" then chainAddr s.root else chainAddr node) tree
  cases hrr : fsWalkF (scopeCb s cb) fuel
      (if chainAddr node = "" then chainAddr s.root else chainAddr node) tree with
  | mk rl re =>
    rw [hrr] at hgr
    cases re with
    | none => exact goodW_prepend_ok cb log hlog (rl, none) hgr
    | some e =>
      exact goodW_wrap cb (log ++ rl) e "error performing walk"
        (goodW_prepend_ok cb log hlog (rl, some e) hgr)

theorem goodW_scopeWalkFrom {ε : Type} (fuel : Nat) (s : Scope) (tree : FsTree)
    (cb : ERef → Except ε Unit) (node : ERef) :
    GoodW cb (scopeWalkFrom fuel s tree cb node) := by
  unfold scopeWalkFrom
  have hge := goodW_if_emit2 cb (chainTy node = EType.Root ∧ scontains s node = true) node
  cases hre : (if chainTy node = EType.Root ∧ scontains s node = true
      then emitW cb node else ([], none)) with
  | mk log e? =>
    rw [hre] at hge
    cases e? with
    | some e => exact hge
    | none => exact goodW_scopeWalkFs fuel s tree cb node log hge

theorem goodW_scopeWalk {ε : Type} (fuel : Nat) (s : Scope) (tree : FsTree)
    (cb : ERef → Except ε Unit) : GoodW cb (scopeWalk fuel s tree cb) := by
  unfold scopeWalk
  cases hfr : (if (chainTy s.startFrom).val < EType.Object.val
      then findRootChain s.startFrom EType.Object else some s.startFrom) with
  | none => exact goodW_structural cb _ rfl
  | some node => exact goodW_scopeWalkFrom fuel s tree cb node


/-! ## Claim C6 -/

/-- Claim C6 (corrected): when the callback returns an error, the walk
invokes the callback on no further entities — the invocation log ends
exactly at the failing entity, every earlier invocation succeeded — and
the walker returns an error whose cause (the innermost error of the
wrap chain) is the callback's error; but the error is NOT returned
unchanged: except for the start-node emission, it comes back wrapped in
the fixed contexts "terminating walk due to error" and "error
performing walk" (see `C6_counterexample`).  Errors with no callback
error inside arise only from walks whose every invocation succeeded
(structural failures), never by reinterpreting a callback error. -/
theorem C6_walk_abort_amended {ε : Type} (fuel : Nat) (s : Scope) (tree : FsTree)
    (cb : ERef → Except ε Unit) :
    ((scopeWalk fuel s tree cb).2 = none →
      ∀ r ∈ (scopeWalk fuel s tree cb).1, cb r = .ok ()) ∧
    (∀ w, (scopeWalk fuel s tree cb).2 = some w →
      (∃ e pre last, (scopeWalk fuel s tree cb).1 = pre ++ [last] ∧
        cb last = .error e ∧ (∀ x ∈ pre, cb x = .ok ()) ∧ cbCause w = some e) ∨
      ((∀ r ∈ (scopeWalk fuel s tree cb).1, cb r = .ok ()) ∧ cbCause w = none)) := by
  refine ⟨?_, ?_⟩
  · intro hnone r hr
    have hg := goodW_scopeWalk fuel s tree cb
    unfold GoodW at hg
    simp only [hnone] at hg
    exact hg r hr
  · intro w hw
    have hg := goodW_scopeWalk fuel s tree cb
    unfold GoodW at hg
    simp only [hw] at hg
    exact hg

/-- Claim C6, counterexample to the claim as stated: on a one-object
tree, a callback failing on the Object entity halts the walk (the log
ends at that entity), but the error the walker returns is the
callback's error wrapped twice — not the same error unchanged. -/
theorem C6_counterexample :
    cb6 (⟨"test:obj", "/r/obj", EType.Object⟩ :: rootChain6) = .error 0 ∧
    (scopeWalk 20 scope6 tree6 cb6).1 =
      [rootChain6, ⟨"test:obj", "/r/obj", EType.Object⟩ :: rootChain6] ∧
    (scopeWalk 20 scope6 tree6 cb6).2 ≠ some (.cb 0) ∧
    (scopeWalk 20 scope6 tree6 cb6).2 =
      some (.wrapped "error performing walk"
        (.wrapped "terminating walk due to error" (.cb 0))) :=
  ⟨rfl, by decide, by decide, rfl⟩

/-- Witness for `C6_walk_abort_amended` on the concrete fixture: the
log splits at the failing Object entity and the callback error is the
returned error's cause. -/
theorem C6_witness :
    (∃ e pre last, (scopeWalk 20 scope6 tree6 cb6).1 = pre ++ [last] ∧
      cb6 last = .error e ∧ (∀ x ∈ pre, cb6 x = .ok ()) ∧
      cbCause (WalkErr.wrapped "error performing walk"
        (WalkErr.wrapped "terminating walk due to error" (WalkErr.cb 0))) = some e) ∨
    ((∀ r ∈ (scopeWalk 20 scope6 tree6 cb6).1, cb6 r = .ok ()) ∧
      cbCause (WalkErr.wrapped "error performing walk"
        (WalkErr.wrapped "terminating walk due to error" (WalkErr.cb 0))) = none) :=
  (C6_walk_abort_amended 20 scope6 tree6 cb6).2 _ rfl


end OCFL
